import Mathlib

/-!
Verification of the SaaS User Growth Analyzer against its design document.

The repository ships the Next.js frontend (`frontend/app/page.tsx`,
`frontend/components/data-visualization.tsx`, `frontend/components/ai-insights.tsx`,
`frontend/components/stats-summary.tsx`, `frontend/lib/apiService.js`).  Those
files are embedded here directly.  The Python backend (Loader, Metric Engine,
Series Builder, Narrative Requester) is not part of the source tree; where a
claim is decided by backend behaviour, the corresponding definition is modelled
from the specification and marked as such in its doc comment.

Strings manipulated character-by-character are represented as `List Char`
(abbreviated `Str`); JavaScript runtime values are represented by the inductive
type `JVal`.
-/

set_option maxHeartbeats 1000000

abbrev Str := List Char

/-- Model of a JavaScript runtime value (the shapes that flow through the
dashboard components): `null`/`undefined` (absence is modelled with `Option`
at use sites), booleans, numbers (as rationals), strings, arrays and plain
objects (ordered key/value lists). -/
inductive JVal where
  | null : JVal
  | bool (b : Bool) : JVal
  | num (q : ℚ) : JVal
  | str (s : String) : JVal
  | arr (elems : List JVal) : JVal
  | obj (fields : List (String × JVal)) : JVal

/-- JavaScript property access `j.k` on a value: a field lookup that yields
`none` (i.e. `undefined`) on non-objects and missing keys; the first binding
wins for duplicate keys. -/
def getField (j : JVal) (k : String) : Option JVal :=
  match j with
  | .obj fs => (fs.find? (fun p => p.1 == k)).map Prod.snd
  | _ => none

/-- JavaScript truthiness of a value. -/
def truthy : JVal → Bool
  | .null => false
  | .bool b => b
  | .num q => q != 0
  | .str s => s != ""
  | .arr _ => true
  | .obj _ => true

/-- Truthiness of a possibly-`undefined` value (`none` is `undefined`). -/
def truthyO (o : Option JVal) : Bool := (o.map truthy).getD false

/-- JavaScript optional member access `o?.k` / `o && o.k`-style field read. -/
def jsField (data : Option JVal) (k : String) : Option JVal :=
  data.bind (fun d => getField d k)

/-- Whether an object value carries a binding for key `k`. -/
def hasField (j : JVal) (k : String) : Bool := (getField j k).isSome

/-- Does `p` begin the list `s`? -/
def beginsWith (p s : Str) : Bool := s.take p.length == p

/-- Does `sub` occur as a contiguous substring of `s`? -/
def hasSubstr : Str → Str → Bool
  | s, sub =>
    beginsWith sub s ||
      match s with
      | [] => false
      | _ :: t => hasSubstr t sub

/-- `String`-level substring test (JS `String.prototype.includes`). -/
def strIncludes (s sub : String) : Bool := hasSubstr s.toList sub.toList

/-! ### `stats-summary.tsx` (`StatsSummary`) -/

/-- JS word character (`\w` = `[A-Za-z0-9_]`). -/
def isWordChar (c : Char) : Bool := c.isAlphanum || c == '_'

/-- Worker for `toTitleCase`: uppercase every character standing at a
`\b\w` position (a word character not preceded by a word character). -/
def titleCaseGo : Bool → Str → Str
  | _, [] => []
  | prevW, c :: rest =>
    (if isWordChar c && !prevW then c.toUpper else c) :: titleCaseGo (isWordChar c) rest

/-- `toTitleCase` from `stats-summary.tsx`: replace `_` with a space,
lowercase, then uppercase the first letter of every word. -/
def toTitleCase (s : String) : String :=
  String.mk (titleCaseGo false ((s.toList.map (fun c => if c == '_' then ' ' else c)).map Char.toLower))

/-- Stand-in for JS `Intl.NumberFormat(...).format`: the claims verified here
do not depend on the locale rendering of a number, only on which branch of
`formatValue` is taken, so the rational is rendered directly. -/
def formatNumber (q : ℚ) : String := toString q

/-- JS `String(v)` coercion (numbers rendered via `formatNumber`; the exact
digit strings are irrelevant to the claims). -/
def jsToString : JVal → String
  | .null => "null"
  | .bool b => cond b "true" "false"
  | .num q => formatNumber q
  | .str s => s
  | .arr l => String.intercalate "," (l.attach.map (fun x => jsToString x.1))
  | .obj _ => "[object Object]"
decreasing_by
  have := List.sizeOf_lt_of_mem x.2
  simp only [JVal.arr.sizeOf_spec]
  omega

/-- The placeholder literal from `stats-summary.tsx` (the file stores the em
dash as the three-character sequence below). -/
def dashLit : String := "â€”"

/-- `formatValue` from `stats-summary.tsx`.  The second argument is the (JS
possibly-`undefined`) value: numbers are formatted, booleans become
`Yes`/`No`, nullish values become the dash placeholder, objects and arrays are
rendered as their key count (`... cohorts` when the label mentions a cohort),
and anything else is coerced with `String(...)`. -/
def formatValue (key : String) (v : Option JVal) : String :=
  match v with
  | some (.num q) => formatNumber q
  | some (.bool b) => if b then "Yes" else "No"
  | none => dashLit
  | some .null => dashLit
  | some (.obj fs) =>
      if strIncludes key.toLower "cohort" then toString fs.length ++ " cohorts"
      else toString fs.length ++ " items"
  | some (.arr l) =>
      if strIncludes key.toLower "cohort" then toString l.length ++ " cohorts"
      else toString l.length ++ " items"
  | some (.str s) => s

/-- One normalized stat card, as produced by `StatsSummary`'s `normalized`
array: a display label, a rendered value, and the pass-through annotations. -/
structure StatEntry where
  label : String
  value : String
  trend : Option JVal
  positive : Option JVal
  change : Option JVal

/-- The runtime error of an unguarded JS property access on a nullish base
(`StatsSummary` reads `s.label`, `s.value`, … without a guard, so a `null`
array element throws a `TypeError` during render). -/
inductive JsError where
  | typeError : JsError
  deriving DecidableEq, Repr

/-- Faithful JS property access `s.k`: throws `TypeError` when the base is
nullish, otherwise yields the field value (`none` is `undefined`). -/
def getFieldE (s : JVal) (k : String) : Except JsError (Option JVal) :=
  match s with
  | .null => .error .typeError
  | _ => .ok (getField s k)

/-- Value of the label string `String(s.label ?? "")` on the non-throwing
path (the base `s` not nullish); the throwing computation is
`labelStringE`. -/
def labelString (s : JVal) : String :=
  match getField s "label" with
  | none => ""
  | some .null => ""
  | some v => jsToString v

/-- Faithful `String(s.label ?? "")`: the property access may throw. -/
def labelStringE (s : JVal) : Except JsError String :=
  (getFieldE s "label").map (fun o =>
    match o with
    | none => ""
    | some .null => ""
    | some v => jsToString v)

/-- The nullish-coalescing step of `??`: a present non-`null` value survives,
`null`/`undefined` is skipped. -/
def nonNullish : Option JVal → Option JVal
  | some .null => none
  | o => o

/-- Value of `s.value ?? s.val ?? s.amount ?? s.count` on the non-throwing
path; the throwing computation is `coalesceValueE`. -/
def coalesceValue (s : JVal) : Option JVal :=
  let pick := fun (k : String) => nonNullish (getField s k)
  (pick "value").orElse fun _ =>
    (pick "val").orElse fun _ =>
      (pick "amount").orElse fun _ => pick "count"

/-- Faithful `s.value ?? s.val ?? s.amount ?? s.count`: the four accesses
share the base `s`, are evaluated left to right, `??` short-circuits, and a
thrown `TypeError` propagates. -/
def coalesceValueE (s : JVal) : Except JsError (Option JVal) :=
  match getFieldE s "value" with
  | .error e => .error e
  | .ok v1 =>
    match nonNullish v1 with
    | some v => .ok (some v)
    | none =>
      match getFieldE s "val" with
      | .error e => .error e
      | .ok v2 =>
        match nonNullish v2 with
        | some v => .ok (some v)
        | none =>
          match getFieldE s "amount" with
          | .error e => .error e
          | .ok v3 =>
            match nonNullish v3 with
            | some v => .ok (some v)
            | none =>
              match getFieldE s "count" with
              | .error e => .error e
              | .ok v4 => .ok (nonNullish v4)

/-- The stat entry computed for an array element on the non-throwing path;
the faithful computation is `mkStatE`, which agrees with this whenever the
element is not nullish. -/
def mkStat (s : JVal) : StatEntry :=
  { label := toTitleCase (labelString s)
  , value := formatValue (labelString s) (coalesceValue s)
  , trend := getField s "trend"
  , positive := getField s "positive"
  , change := getField s "change" }

/-- Faithful normalization of a single array element of the `data` prop: the
unguarded accesses `s.label`, `s.value`/`s.val`/`s.amount`/`s.count`,
`s.trend`, `s.positive`, `s.change` each throw on a nullish element. -/
def mkStatE (s : JVal) : Except JsError StatEntry := do
  let lbl ← labelStringE s
  let v ← coalesceValueE s
  let tr ← getFieldE s "trend"
  let po ← getFieldE s "positive"
  let ch ← getFieldE s "change"
  pure { label := toTitleCase lbl, value := formatValue lbl v
       , trend := tr, positive := po, change := ch }

/-- `data.map(...)` over array elements, left to right, propagating the
first thrown `TypeError`. -/
def mapStatE : List JVal → Except JsError (List StatEntry)
  | [] => .ok []
  | x :: xs => do
    let e ← mkStatE x
    let rest ← mapStatE xs
    pure (e :: rest)

/-- The `normalized` computation of `StatsSummary`, including its throwing
path: an array maps element-wise through the unguarded accesses (throwing on
a nullish element); a truthy non-array object maps one entry per key (no
unguarded access, hence total); every other input (including `undefined`,
`null`, strings, numbers, booleans) yields the empty list. -/
def normalizeStatsE : Option JVal → Except JsError (List StatEntry)
  | some (.arr l) => mapStatE l
  | some (.obj fs) =>
      .ok (fs.map (fun kv =>
        { label := toTitleCase kv.1, value := formatValue kv.1 (some kv.2)
        , trend := none, positive := none, change := none }))
  | _ => .ok []

/-! ### `data-visualization.tsx` (`DataVisualization`) -/

/-- The hard-coded six-week `chartData` demo series of `data-visualization.tsx`. -/
def demoChartData : JVal := .arr [
  .obj [("week", .str "Week 1"), ("users", .num 4000), ("active", .num 2400), ("churn", .num 240)],
  .obj [("week", .str "Week 2"), ("users", .num 5200), ("active", .num 3000), ("churn", .num 220)],
  .obj [("week", .str "Week 3"), ("users", .num 6800), ("active", .num 4200), ("churn", .num 200)],
  .obj [("week", .str "Week 4"), ("users", .num 7500), ("active", .num 5100), ("churn", .num 180)],
  .obj [("week", .str "Week 5"), ("users", .num 8900), ("active", .num 6200), ("churn", .num 160)],
  .obj [("week", .str "Week 6"), ("users", .num 10200), ("active", .num 7300), ("churn", .num 140)]]

/-- The hard-coded `pieData` demo split of `data-visualization.tsx`. -/
def demoPieData : JVal := .arr [
  .obj [("name", .str "Active Users"), ("value", .num 72)],
  .obj [("name", .str "Inactive"), ("value", .num 28)]]

/-- `safeChartData` of `DataVisualization`:
`(data && data.chartData) ? data.chartData : chartData`. -/
def safeChartData (data : Option JVal) : JVal :=
  if truthyO data && truthyO (jsField data "chartData") then
    (jsField data "chartData").getD demoChartData
  else demoChartData

/-- `safePieData` of `DataVisualization`:
`(data && data.pieData) ? data.pieData : pieData`. -/
def safePieData (data : Option JVal) : JVal :=
  if truthyO data && truthyO (jsField data "pieData") then
    (jsField data "pieData").getD demoPieData
  else demoPieData

/-! ### `ai-insights.tsx` (`markdownToHtml`)

The renderer feeds `markdownToHtml(summary)` into `dangerouslySetInnerHTML`.
The function is embedded below character-by-character: the initial
HTML-escape, the three heading rewrites, the bold rewrite, the list-item
rewrite, the `<ul>` grouping and the paragraph wrapping, each mirroring the
corresponding JS regex replacement.  The fuelled workers (`boldA`, `liRunA`,
`ulA`, `sbA`) use fuel `s.length`, which always suffices because every step
consumes at least one character of the input. -/

def h1open : Str := "<h1 class=\"text-2xl font-bold mt-6 mb-4\">".toList

def h1close : Str := "</h1>".toList

def h2open : Str := "<h2 class=\"text-xl font-bold mt-5 mb-3\">".toList

def h2close : Str := "</h2>".toList

def h3open : Str := "<h3 class=\"text-lg font-bold mt-4 mb-2\">".toList

def h3close : Str := "</h3>".toList

def strongOpen : Str := "<strong>".toList

def strongClose : Str := "</strong>".toList

def liOpen : Str := "<li>".toList

def liClose : Str := "</li>".toList

def ulOpen : Str := "<ul class=\"list-disc ml-6 space-y-1\">".toList

def ulClose : Str := "</ul>".toList

def pOpen : Str := "<p class=\"mb-3\">".toList

def pClose : Str := "</p>".toList

def brTag : Str := "<br/>".toList

/-- Every HTML tag string that `markdownToHtml`'s own rewrite rules can
introduce. -/
def allowedTags : List Str :=
  [h1open, h1close, h2open, h2close, h3open, h3close, strongOpen, strongClose,
   liOpen, liClose, ulOpen, ulClose, pOpen, pClose, brTag]

/-- Global single-character replacement (JS `s.replace(/c/g, r)`). -/
def replC (c : Char) (r : Str) : Str → Str
  | [] => []
  | x :: xs => if x = c then r ++ replC c r xs else x :: replC c r xs

/-- The `escape` helper of `markdownToHtml`: `&`, `<` and `>` are
HTML-escaped, in that order, before any markdown substitution is applied. -/
def escapeHtml (s : Str) : Str :=
  replC '>' "&gt;".toList (replC '<' "&lt;".toList (replC '&' "&amp;".toList s))

/-- Split on `'\n'` (the line decomposition under which the `m`-flagged
anchored rewrites act). -/
def splitNl : Str → List Str
  | [] => [[]]
  | c :: rest =>
      if c = '\n' then [] :: splitNl rest
      else
        match splitNl rest with
        | l :: ls => (c :: l) :: ls
        | [] => [[c]]

/-- Rejoin lines with `'\n'`. -/
def joinNl : List Str → Str
  | [] => []
  | [l] => l
  | l :: ls => l ++ '\n' :: joinNl ls

/-- JS `\s` for characters other than `'\n'` (lines never contain `'\n'`). -/
def isWs (c : Char) : Bool :=
  c = ' ' || c = '\t' || c = '\r' || c = '\x0b' || c = '\x0c'

/-- The opening tag of heading level `n`. -/
def hOpen : Nat → Str
  | 1 => h1open
  | 2 => h2open
  | 3 => h3open
  | _ => []

/-- The closing tag of heading level `n`. -/
def hClose : Nat → Str
  | 1 => h1close
  | 2 => h2close
  | 3 => h3close
  | _ => []

/-- One heading rewrite `/^#{n}\s+(.*)$/gm` restricted to a single line:
exactly the hashes, at least one whitespace character, then the capture (the
rest of the line after the greedy whitespace run) wrapped in the heading
tags. -/
def headingRule (n : Nat) (line : Str) : Str :=
  if line.take n = List.replicate n '#' ∧ (line.drop n).head?.any isWs then
    hOpen n ++ (line.drop n).dropWhile isWs ++ hClose n
  else line

/-- One heading pass over the whole (multi-line) string. -/
def headingPhase (n : Nat) (s : Str) : Str :=
  joinNl ((splitNl s).map (headingRule n))

/-- The lazy close of a `**` pair (`(.*?)\*\*` with `.` not matching
newlines): the shortest newline-free prefix followed by `**`; returns that
capture and the remainder after the closing `**`. -/
def findClose : Str → Option (Str × Str)
  | [] => none
  | c :: rest =>
    if c = '*' ∧ rest.take 1 = ['*'] then some ([], rest.drop 1)
    else if c = '\n' then none
    else (findClose rest).map (fun p => (c :: p.1, p.2))

/-- Fuelled worker of the global bold rewrite
`html.replace(/\*\*(.*?)\*\*/g, '<strong>$1</strong>')`. -/
def boldA : Nat → Str → Str
  | 0, s => s
  | fuel + 1, s =>
    match s with
    | [] => []
    | c :: rest =>
      if c = '*' ∧ rest.take 1 = ['*'] then
        match findClose (rest.drop 1) with
        | some (cap, r2) => strongOpen ++ cap ++ strongClose ++ boldA fuel r2
        | none => c :: boldA fuel rest
      else c :: boldA fuel rest

/-- The bold rewrite. -/
def boldRepl (s : Str) : Str := boldA s.length s

/-- One list rewrite `/^(?:- |\d+\. )(.*)$/gm` restricted to a single line. -/
def listRule (line : Str) : Str :=
  if line.take 2 = "- ".toList then liOpen ++ line.drop 2 ++ liClose
  else
    if line.takeWhile Char.isDigit ≠ [] ∧
        (line.dropWhile Char.isDigit).take 2 = ". ".toList then
      liOpen ++ (line.dropWhile Char.isDigit).drop 2 ++ liClose
    else line

/-- The list pass over the whole string. -/
def listPhase (s : Str) : Str := joinNl ((splitNl s).map listRule)

/-- The greedy `<li>.*<\/li>` backtracking step: the last occurrence of
`</li>` before the next newline; returns the text before it and the
remainder after it. -/
def findLC : Str → Option (Str × Str)
  | [] => none
  | c :: rest =>
    if c = '\n' then none
    else
      match findLC rest with
      | some p => some (c :: p.1, p.2)
      | none =>
        if c = '<' ∧ rest.take 4 = "/li>".toList then some ([], rest.drop 4)
        else none

/-- One `<li>...</li>` group item matched at the head of `s`. -/
def liItem (s : Str) : Option (Str × Str) :=
  if s.take 4 = liOpen then
    match findLC (s.drop 4) with
    | some (x, y) => some (liOpen ++ x ++ liClose, y)
    | none => none
  else none

/-- Fuelled worker matching `(<li>.*<\/li>\n?)+` at the head of the input:
the whole matched run and the remainder. -/
def liRunA : Nat → Str → Option (Str × Str)
  | 0, _ => none
  | fuel + 1, s =>
    match liItem s with
    | none => none
    | some (m1, r1) =>
      if r1.take 1 = ['\n'] then
        match liRunA fuel (r1.drop 1) with
        | some (m3, r3) => some (m1 ++ '\n' :: m3, r3)
        | none => some (m1 ++ ['\n'], r1.drop 1)
      else
        match liRunA fuel r1 with
        | some (m3, r3) => some (m1 ++ m3, r3)
        | none => some (m1, r1)

/-- A maximal `<li>` run at the head of the input. -/
def liRun (s : Str) : Option (Str × Str) := liRunA s.length s

/-- Fuelled worker of the `<ul>` grouping pass
`html.replace(/(<li>.*<\/li>\n?)+/g, m => '<ul ...>' + m + '</ul>')`. -/
def ulA : Nat → Str → Str
  | 0, s => s
  | fuel + 1, s =>
    match liRun s with
    | some (m, r) => ulOpen ++ m ++ ulClose ++ ulA fuel r
    | none =>
      match s with
      | [] => []
      | c :: t => c :: ulA fuel t

/-- The `<ul>` grouping pass. -/
def ulWrap (s : Str) : Str := ulA s.length s

/-- JS `\s` including `'\n'` (the whitespace set of `String.prototype.trim`). -/
def isWsAll (c : Char) : Bool := isWs c || c = '\n'

/-- Fuelled splitter on `/\n\n+/` (runs of two or more newlines); `acc` holds
the current block reversed. -/
def sbA : Nat → Str → Str → List Str
  | 0, acc, s => [acc.reverse ++ s]
  | fuel + 1, acc, s =>
    match s with
    | [] => [acc.reverse]
    | c :: rest =>
      if c = '\n' ∧ rest.take 1 = ['\n'] then
        acc.reverse :: sbA fuel [] ((rest.drop 1).dropWhile (fun x => x = '\n'))
      else sbA fuel (c :: acc) rest

/-- `html.split(/\n\n+/)`. -/
def splitBlocks (s : Str) : List Str := sbA s.length [] s

/-- The block test `/^(<h\d|<ul|<li)/.test(block.trim())`; only the leading
trim can affect an anchored test. -/
def blockIsHtml (b : Str) : Bool :=
  let t := b.dropWhile isWsAll
  (t.take 2 == "<h".toList && (t.drop 2).head?.any Char.isDigit) ||
    t.take 3 == "<ul".toList || t.take 3 == "<li".toList

/-- Paragraph wrapping of one block: heading/list blocks pass through, other
blocks are wrapped in `<p>` with `\n` rewritten to `<br/>`. -/
def paraWrap (b : Str) : Str :=
  if blockIsHtml b then b else pOpen ++ replC '\n' brTag b ++ pClose

/-- The paragraph pass: split into blocks, wrap, and join with `""`. -/
def paraPhase (s : Str) : Str := ((splitBlocks s).map paraWrap).flatten

/-- The markdown substitution pipeline of `markdownToHtml` (everything after
the initial escape): h3, h2, h1 headings, bold, list items, `<ul>` grouping,
then paragraphs. -/
def mdPhases (s : Str) : Str :=
  paraPhase (ulWrap (listPhase (boldRepl
    (headingPhase 1 (headingPhase 2 (headingPhase 3 s))))))

/-- `markdownToHtml` from `ai-insights.tsx` (characters in, characters out):
`if (!md) return ""`, then escape, then the markdown substitutions. -/
def markdownToHtml (md : Str) : Str :=
  if md = [] then [] else mdPhases (escapeHtml md)

/-- Strings every one of whose `<` occurrences begins a whole allowed tag:
inductively, concatenations of non-`<` characters and allowed tags. -/
inductive TagSafe : Str → Prop
  | nil : TagSafe []
  | chr (c : Char) (s : Str) : c ≠ '<' → TagSafe s → TagSafe (c :: s)
  | tag (t : Str) (s : Str) : t ∈ allowedTags → TagSafe s → TagSafe (t ++ s)

/-- The tag-safety property of C8: wherever `<` occurs in `s`, one of the
fixed rewrite-rule tags starts there. -/
def OnlyRuleTags (s : Str) : Prop :=
  ∀ xs ys, s = xs ++ '<' :: ys → ∃ t ∈ allowedTags, ∃ u, '<' :: ys = t ++ u

/-- Shape of a line after the heading passes: either still free of `<`, or a
whole heading-wrapped line with a `<`-free body. -/
def HLine (l : Str) : Prop :=
  '<' ∉ l ∨
    ∃ n m, (n = 1 ∨ n = 2 ∨ n = 3) ∧ '<' ∉ m ∧ l = hOpen n ++ m ++ hClose n

/-! ### Backend core, modelled from the specification

The Flask backend referenced by `frontend/lib/apiService.js` (`/upload`,
`/analyze`) is not part of the source tree, so the Loader, Metric Engine,
Series Builder and Narrative Requester below are modelled from the
specification (sections 3, 4, 6, 7 of the design document). -/

/-- Modelled from the spec: the Loader's two unrecoverable failure modes —
no `user_id`-equivalent column, or zero resolvable rows after parsing. -/
inductive IngestionError where
  | noUserColumn : IngestionError
  | noValidRows : IngestionError
  deriving DecidableEq, Repr

/-- Modelled from the spec: a parsed upload — a header row of column names and
data rows of string cells (missing cells read as `""`). -/
structure Table where
  header : List String
  rows : List (List String)
  deriving DecidableEq, Repr

/-- Modelled from the spec: one normalized row — a resolvable `user_id` plus
the parsed signup and activity periods (ISO-week bucketing is abstracted to
integer period indices); at least one of the two dates parsed. -/
structure Record where
  userId : String
  signup : Option Int
  activity : Option Int
  deriving DecidableEq, Repr

/-- Modelled from the spec: the Loader's output — the normalized records plus
the `skipped_rows` diagnostic counting dropped rows. -/
structure Dataset where
  records : List Record
  skippedRows : Nat
  deriving DecidableEq, Repr

/-- Modelled from the spec: the ordered alias table for the required
`user_id`-equivalent column. -/
def userAliases : List String := ["user", "user_id", "uid", "userid"]

/-- Modelled from the spec: aliases for the signup-date column. -/
def signupAliases : List String := ["signup_date", "signup", "created_at", "registered"]

/-- Modelled from the spec: aliases for the activity-date column. -/
def activityAliases : List String := ["activity_date", "activity", "last_active", "event_date"]

/-- Character-level lowercase of a string (the core `String.toLower` is
observationally the same on ASCII but does not reduce in the kernel). -/
def lowerStr (s : String) : String := String.mk (s.data.map Char.toLower)

/-- Numeric value of a digit string. -/
def digitsVal (l : List Char) : Nat := l.foldl (fun a c => 10 * a + (c.toNat - 48)) 0

/-- Parse a nonempty all-digit string. -/
def strToNat (s : String) : Option Nat :=
  if s.data ≠ [] ∧ s.data.all Char.isDigit then some (digitsVal s.data) else none

/-- Parse an optionally `-`-signed digit string. -/
def strToInt (s : String) : Option Int :=
  match s.data with
  | '-' :: rest =>
      if rest ≠ [] ∧ rest.all Char.isDigit then some (-(digitsVal rest : Int)) else none
  | _ => (strToNat s).map Int.ofNat

/-- Modelled from the spec: case-insensitive column resolution against an
alias table; the first matching column (in column order) wins. -/
def findCol (header : List String) (aliases : List String) : Option Nat :=
  header.findIdx? (fun h => aliases.contains (lowerStr h))

/-- Modelled from the spec: the ordered list of accepted date formats, each a
parser tried in turn (calendar formats are abstracted to period indices:
a bare integer, or a `W`-prefixed week number). -/
def dateFormats : List (String → Option Int) :=
  [fun s => strToInt s,
   fun s => match s.data with
            | 'W' :: rest => strToInt (String.mk rest)
            | _ => none]

/-- Modelled from the spec: date parsing — the first successful format wins. -/
def parseDate (s : String) : Option Int :=
  (dateFormats.filterMap (fun p => p s)).head?

/-- Modelled from the spec: row-level parsing.  A row resolves when its user
cell is nonempty and at least one date field parses; otherwise it is dropped
(skip-and-count), never raised as an error. -/
def parseRow (ui : Nat) (si ai : Option Nat) (row : List String) : Option Record :=
  let u := (row.get? ui).getD ""
  if u = "" then none
  else
    let sd := (si.bind (fun i => row.get? i)).bind parseDate
    let ad := (ai.bind (fun i => row.get? i)).bind parseDate
    if sd = none ∧ ad = none then none
    else some ⟨u, sd, ad⟩

/-- Modelled from the spec: the rows of a table that resolve to records (the
user column resolved via the alias table; `[]` when that column is absent). -/
def resolvedRows (t : Table) : List Record :=
  match findCol t.header userAliases with
  | none => []
  | some ui =>
      t.rows.filterMap (parseRow ui (findCol t.header signupAliases) (findCol t.header activityAliases))

/-- Modelled from the spec: `load(file_bytes, declared_extension) -> Dataset`.
Fails with `IngestionError` exactly when the `user_id`-equivalent column is
absent or zero rows resolve; row-level problems are skipped and counted. -/
def load (t : Table) : Except IngestionError Dataset :=
  match findCol t.header userAliases with
  | none => .error .noUserColumn
  | some _ =>
      if resolvedRows t = [] then .error .noValidRows
      else .ok ⟨resolvedRows t, t.rows.length - (resolvedRows t).length⟩

/-! #### Metric Engine (modelled from the spec) -/

/-- Modelled from the spec: the distinct users of a dataset. -/
def dsUsers (ds : Dataset) : List String := (ds.records.map Record.userId).dedup

/-- Modelled from the spec: the distinct periods in which a user has activity. -/
def userActivity (ds : Dataset) (u : String) : List Int :=
  ((ds.records.filter (fun r => r.userId == u)).filterMap Record.activity).dedup

/-- Modelled from the spec: is the user active (has an activity event) in
period `w`? -/
def activeAt (ds : Dataset) (u : String) (w : Int) : Bool :=
  (userActivity ds u).contains w

/-- Modelled from the spec: the churn denominator for period `p` — the users
active in period `p − 1` that are observed in at least two periods (users with
fewer observed periods cannot be judged as churned and are excluded). -/
def churnDenom (ds : Dataset) (p : Int) : List String :=
  (dsUsers ds).filter (fun u => activeAt ds u (p - 1) && 2 ≤ (userActivity ds u).length)

/-- Modelled from the spec: the churned users for period `p` — the denominator
users with no activity in period `p`. -/
def churnNumer (ds : Dataset) (p : Int) : List String :=
  (churnDenom ds p).filter (fun u => !activeAt ds u p)

/-- Modelled from the spec: churn rate for period `p` — among users active in
period `p − 1` (observed ≥ 2 periods), the fraction with no activity in `p`;
`0` when that denominator is empty. -/
def churnRate (ds : Dataset) (p : Int) : ℚ :=
  if churnDenom ds p = [] then 0
  else ((churnNumer ds p).length : ℚ) / ((churnDenom ds p).length : ℚ)

/-- Modelled from the spec: the signup period of a user (first record wins). -/
def signupWeekOf (ds : Dataset) (u : String) : Option Int :=
  ((ds.records.filter (fun r => r.userId == u)).filterMap Record.signup).head?

/-- Modelled from the spec: the members of the signup-week cohort `w`. -/
def cohortMembers (ds : Dataset) (w : Int) : List String :=
  (dsUsers ds).filter (fun u => signupWeekOf ds u == some w)

/-- Modelled from the spec: the distinct signup weeks present in the dataset. -/
def cohortWeeks (ds : Dataset) : List Int :=
  (ds.records.filterMap Record.signup).dedup

/-- Modelled from the spec: every period index (signup or activity) observed
in the dataset. -/
def allPeriods (ds : Dataset) : List Int :=
  ((ds.records.filterMap Record.activity) ++ (ds.records.filterMap Record.signup)).dedup

/-- Modelled from the spec: the most recent observed period (`0` for an empty
dataset). -/
def latestPeriod (ds : Dataset) : Int := (allPeriods ds).foldr max 0

/-- Modelled from the spec: the earliest observed period (`0` for an empty
dataset). -/
def earliestPeriod (ds : Dataset) : Int := (allPeriods ds).foldr min (latestPeriod ds)

/-- Modelled from the spec: the number of week offsets tracked for cohorts
(the dataset's observed span, so offset `0` always exists). -/
def offsetCount (ds : Dataset) : Nat :=
  (latestPeriod ds - earliestPeriod ds).toNat + 1

/-- Modelled from the spec: cohort retention — the percentage of cohort `w`'s
members active at week offset `k`. -/
def retention (ds : Dataset) (w : Int) (k : Nat) : ℚ :=
  let c := cohortMembers ds w
  if c = [] then 0
  else 100 * ((c.filter (fun u => activeAt ds u (w + k))).length : ℚ) / (c.length : ℚ)

/-- Modelled from the spec: the CohortTable — one row per nonempty signup-week
cohort, the ordered retention percentages by week offset.  Per the stated
invariant, a cohort whose offset-0 retention is not 100% is excluded from the
table rather than included with a different value. -/
def cohortTable (ds : Dataset) : List (Int × List ℚ) :=
  (cohortWeeks ds).filterMap (fun w =>
    if cohortMembers ds w ≠ [] ∧ retention ds w 0 = 100 then
      some (w, (List.range (offsetCount ds)).map (retention ds w))
    else none)

/-- Modelled from the spec: distinct new users in signup period `w`. -/
def newUsersAt (ds : Dataset) (w : Int) : Nat := (cohortMembers ds w).length

/-- Modelled from the spec: distinct users with activity in period `w`. -/
def activeUsersAt (ds : Dataset) (w : Int) : Nat :=
  ((dsUsers ds).filter (fun u => activeAt ds u w)).length

/-- Modelled from the spec: engagement ratio — active users in the most recent
period over cumulative distinct users (`0` for an empty dataset). -/
def engagementRatio (ds : Dataset) : ℚ :=
  if dsUsers ds = [] then 0
  else ((activeUsersAt ds (latestPeriod ds)) : ℚ) / ((dsUsers ds).length : ℚ)

/-- A labeled stat entry of the analysis result (`metrics` facet), optionally
carrying trend/positive/change annotations. -/
structure MetricEntry where
  label : String
  value : ℚ
  trend : Option String
  positive : Option Bool
  change : Option String
  deriving DecidableEq, Repr

/-- Modelled from the spec: `compute(dataset) -> MetricSet`, the ordered list
of labeled metrics.  The trend/positive/change annotations are left empty:
the design document itself records (section 9) that per-metric polarity was
only observed as UI-side placeholder logic, not a backend contract. -/
def compute (ds : Dataset) : List MetricEntry :=
  [⟨"total_users", ((dsUsers ds).length : ℚ), none, none, none⟩,
   ⟨"new_users", ((newUsersAt ds (latestPeriod ds)) : ℚ), none, none, none⟩,
   ⟨"churn_rate", churnRate ds (latestPeriod ds), none, none, none⟩,
   ⟨"engagement_ratio", engagementRatio ds, none, none, none⟩]

/-! #### Series Builder (modelled from the spec) -/

/-- One chart-ready point `{period, users, active, churn}`. -/
structure SeriesPoint where
  period : Int
  users : Nat
  active : Nat
  churn : ℚ
  deriving DecidableEq, Repr

/-- Modelled from the spec: round-half-up integer percentage `part/total·100`. -/
def roundPct (part total : Nat) : Int :=
  (((200 * part + total) / (2 * total) : Nat) : Int)

/-- Modelled from the spec: the `pieSeries` active/inactive split.  Both
shares are rounded to integer percentages and the rounding remainder is
assigned to the larger share (ties: the active share), so the two values sum
to exactly 100 for any nonempty split. -/
def pieSplit (active total : Nat) : List (String × Int) :=
  if total = 0 then []
  else
    let a0 := roundPct active total
    let i0 := roundPct (total - active) total
    let rem := 100 - a0 - i0
    if i0 ≤ a0 then [("Active Users", a0 + rem), ("Inactive", i0)]
    else [("Active Users", a0), ("Inactive", i0 + rem)]

/-- Modelled from the spec: the gap-free ascending period range of the
dataset (empty for an empty dataset). -/
def periodRange (ds : Dataset) : List Int :=
  if allPeriods ds = [] then []
  else (List.range (offsetCount ds)).map (fun k => earliestPeriod ds + (k : Int))

/-- The `visualizationData` facet: chart series plus pie split. -/
structure VizData where
  chartData : List SeriesPoint
  pieData : List (String × Int)
  deriving DecidableEq, Repr

/-- Modelled from the spec: `build(dataset, metrics)` — one zero-filled point
per period in the observed range, plus the active/inactive pie split. -/
def buildViz (ds : Dataset) : VizData :=
  { chartData := (periodRange ds).map (fun w =>
      ⟨w, newUsersAt ds w, activeUsersAt ds w, churnRate ds w⟩)
  , pieData := pieSplit (activeUsersAt ds (latestPeriod ds)) (dsUsers ds).length }

/-! #### Narrative Requester (modelled from the spec) -/

/-- Modelled from the spec: the external summarization service's response —
success text, a timeout, or a non-success HTTP status. -/
inductive SvcResp where
  | ok (text : String) : SvcResp
  | timeout : SvcResp
  | httpError (code : Nat) : SvcResp
  deriving DecidableEq, Repr

/-- The Narrative Requester's result: the narrative text and the
`degraded` flag. -/
structure NarrativeResult where
  text : String
  degraded : Bool
  deriving DecidableEq, Repr

/-- Modelled from the spec: one serialized metric summary line. -/
def metricLine (m : MetricEntry) : String := m.label ++ "=" ++ toString m.value

/-- Modelled from the spec: the deterministic bounded prompt built from the
metric set (no raw user records are ever included). -/
def buildPrompt (ms : List MetricEntry) : String :=
  "Summarize these SaaS growth metrics: " ++ String.intercalate ", " (ms.map metricLine)

/-- Modelled from the spec: strip disallowed markup from returned text. -/
def stripMarkup (s : String) : String :=
  String.mk (s.toList.filter (fun c => c ≠ '<' ∧ c ≠ '>'))

/-- Modelled from the spec: the maximum narrative length. -/
def maxSummaryLen : Nat := 2000

/-- Modelled from the spec: validation of returned text — strip markup and
truncate to the maximum length. -/
def validateText (s : String) : String :=
  String.mk ((stripMarkup s).toList.take maxSummaryLen)

/-- Modelled from the spec: the fallback summary templated directly from the
metrics; nonempty by construction. -/
def fallbackSummary (ms : List MetricEntry) : String :=
  "Automated summary (AI service unavailable): " ++
    String.intercalate "; " (ms.map metricLine)

/-- Modelled from the spec: `summarize(metrics)` over a service response.  On
timeout or non-success the result is the fallback templated summary with
`degraded := true`; a successful but empty/cleaned-away response also falls
back; otherwise the validated text is returned with `degraded := false`. -/
def summarize (ms : List MetricEntry) (resp : SvcResp) : NarrativeResult :=
  match resp with
  | .ok t =>
      let c := validateText t
      if c = "" then ⟨fallbackSummary ms, true⟩ else ⟨c, false⟩
  | .timeout => ⟨fallbackSummary ms, true⟩
  | .httpError _ => ⟨fallbackSummary ms, true⟩

/-! #### Combined pipeline (modelled from the spec) -/

/-- The single analysis result object returned to the caller, with exactly
the three top-level facets the presentation layer reads. -/
structure AnalysisResult where
  metrics : List MetricEntry
  visualizationData : VizData
  ai_summary : String
  deriving DecidableEq, Repr

/-- Modelled from the spec: the full pipeline
Loader → Metric Engine → {Series Builder, Narrative Requester}, also
returning the narrative `degraded` flag.  `svc` is the external
summarization service (prompt ↦ response). -/
def analyzeFull (t : Table) (svc : String → SvcResp) :
    Except IngestionError (AnalysisResult × Bool) :=
  (load t).map (fun ds =>
    let ms := compute ds
    let nr := summarize ms (svc (buildPrompt ms))
    (⟨ms, buildViz ds, nr.text⟩, nr.degraded))

/-- Modelled from the spec: the analysis call as seen by the caller — the
single result object with the three facets. -/
def analyze (t : Table) (svc : String → SvcResp) : Except IngestionError AnalysisResult :=
  (analyzeFull t svc).map Prod.fst

/-- JSON rendering of a metric entry, as serialized to the frontend. -/
def metricJson (m : MetricEntry) : JVal :=
  .obj [("label", .str m.label), ("value", .num m.value),
        ("trend", (m.trend.map JVal.str).getD .null),
        ("positive", (m.positive.map JVal.bool).getD .null),
        ("change", (m.change.map JVal.str).getD .null)]

/-- JSON rendering of one series point. -/
def seriesPointJson (p : SeriesPoint) : JVal :=
  .obj [("period", .num (p.period : ℚ)), ("users", .num (p.users : ℚ)),
        ("active", .num (p.active : ℚ)), ("churn", .num p.churn)]

/-- JSON rendering of the `visualizationData` facet. -/
def vizJson (v : VizData) : JVal :=
  .obj [("chartData", .arr (v.chartData.map seriesPointJson)),
        ("pieData", .arr (v.pieData.map (fun p =>
          .obj [("name", .str p.1), ("value", .num (p.2 : ℚ))])))]

/-- JSON rendering of the whole analysis result object. -/
def resultJson (r : AnalysisResult) : JVal :=
  .obj [("metrics", .arr (r.metrics.map metricJson)),
        ("visualizationData", vizJson r.visualizationData),
        ("ai_summary", .str r.ai_summary)]

/-- The top-level field names of a JSON object. -/
def topFields : JVal → List String
  | .obj fs => fs.map Prod.fst
  | _ => []

/-- The three reads the presentation layer performs on the analysis result
(`page.tsx` lines 190–192: `analysisResults?.metrics`,
`analysisResults?.visualizationData`, `analysisResults?.ai_summary`). -/
def pageReads (res : Option JVal) : Option JVal × Option JVal × Option JVal :=
  (jsField res "metrics", jsField res "visualizationData", jsField res "ai_summary")

/-- A concrete well-formed upload used to evaluate the pipeline on a witness
input: three rows, two users, two periods. -/
def sampleTable : Table :=
  { header := ["user_id", "signup_date", "activity_date"]
  , rows := [["u1", "0", "0"], ["u1", "0", "1"], ["u2", "0", "1"]] }

/-- A concrete deterministic summarization-service mock. -/
def sampleSvc : String → SvcResp := fun _ => .ok "All good."

/-- The analysis result the pipeline produces on `sampleTable`/`sampleSvc`
(extracted for use in closed witness statements). -/
def sampleResult : AnalysisResult :=
  ((analyze sampleTable sampleSvc).toOption).getD ⟨[], ⟨[], []⟩, ""⟩

/-- A concrete two-user dataset whose single cohort is fully active at its
signup week. -/
def sampleDataset : Dataset :=
  { records := [⟨"u1", some 0, some 0⟩, ⟨"u2", some 0, some 0⟩], skippedRows := 0 }

theorem getFieldE_ok {s : JVal} (h : s ≠ JVal.null) (k : String) :
    getFieldE s k = .ok (getField s k) := by
  cases s <;> first
  | exact absurd rfl h
  | rfl

theorem labelStringE_ok {s : JVal} (h : s ≠ JVal.null) :
    labelStringE s = .ok (labelString s) := by
  unfold labelStringE labelString
  rw [getFieldE_ok h]
  rfl

theorem coalesceValueE_ok {s : JVal} (h : s ≠ JVal.null) :
    coalesceValueE s = .ok (coalesceValue s) := by
  simp only [coalesceValueE, coalesceValue, getFieldE_ok h]
  cases nonNullish (getField s "value") <;>
    cases nonNullish (getField s "val") <;>
      cases nonNullish (getField s "amount") <;>
        cases nonNullish (getField s "count") <;> rfl

theorem mkStatE_ok {s : JVal} (h : s ≠ JVal.null) : mkStatE s = .ok (mkStat s) := by
  unfold mkStatE mkStat
  rw [labelStringE_ok h, coalesceValueE_ok h]
  simp only [getFieldE_ok h]
  rfl

theorem mkStatE_null : mkStatE JVal.null = .error JsError.typeError := rfl

theorem mapStatE_ok : ∀ l : List JVal, (∀ x ∈ l, x ≠ JVal.null) →
    mapStatE l = .ok (l.map mkStat)
  | [], _ => rfl
  | x :: xs, h => by
      simp only [mapStatE]
      rw [mkStatE_ok (h x (by simp)),
        mapStatE_ok xs (fun y hy => h y (List.mem_cons_of_mem x hy))]
      rfl

theorem mapStatE_throws : ∀ l : List JVal, JVal.null ∈ l →
    mapStatE l = .error JsError.typeError
  | [], h => absurd h (by simp)
  | x :: xs, h => by
      simp only [mapStatE]
      by_cases hx : x = JVal.null
      · rw [hx, mkStatE_null]
        rfl
      · rcases List.mem_cons.mp h with hnull | h'
        · exact absurd hnull.symm hx
        · rw [mkStatE_ok hx, mapStatE_throws xs h']
          rfl

/-- C10 counterexample. The claim says `StatsSummary`'s normalization is
total over arbitrary `data` inputs so that rendering never throws; but the
array branch reads `s.label` (then `s.value` etc.) without a guard, so the
concrete malformed input `[null]` makes rendering throw a `TypeError`
instead of producing a list of entries. -/
theorem statsSummary_null_element_throws :
    normalizeStatsE (some (JVal.arr [JVal.null])) = .error JsError.typeError :=
  rfl

/-- C10 theorem (amended). `StatsSummary`'s normalization is total over
arbitrary non-array `data` inputs and over arrays without nullish elements:
such arrays map element-wise to entries whose label is the title-cased
`label` and whose value is drawn from the first present of
`value`/`val`/`amount`/`count`; a non-array object maps one entry per key;
every other input (`undefined`, `null`, string, number, boolean) yields the
empty list; and `formatValue` renders nullish values as the dash placeholder
and object values as their key count (`... cohorts` when the label mentions
"cohort").  However an array containing a `null` element makes rendering
throw a `TypeError` (unguarded property access), so normalization is not
total on those inputs. -/
theorem statsSummary_normalize_amended :
    (normalizeStatsE none = .ok [] ∧ normalizeStatsE (some JVal.null) = .ok [] ∧
      (∀ s, normalizeStatsE (some (JVal.str s)) = .ok []) ∧
      (∀ q, normalizeStatsE (some (JVal.num q)) = .ok []) ∧
      (∀ b, normalizeStatsE (some (JVal.bool b)) = .ok [])) ∧
    (∀ l, (∀ x ∈ l, x ≠ JVal.null) →
      normalizeStatsE (some (JVal.arr l)) = .ok (l.map mkStat)) ∧
    (∀ l, JVal.null ∈ l →
      normalizeStatsE (some (JVal.arr l)) = .error JsError.typeError) ∧
    (∀ s, s ≠ JVal.null →
      mkStatE s = .ok (mkStat s) ∧
      (mkStat s).label = toTitleCase (labelString s) ∧
      (mkStat s).value = formatValue (labelString s) (coalesceValue s)) ∧
    (∀ fs, normalizeStatsE (some (JVal.obj fs)) =
      .ok (fs.map (fun kv =>
        { label := toTitleCase kv.1, value := formatValue kv.1 (some kv.2)
        , trend := none, positive := none, change := none }))) ∧
    (∀ k, formatValue k none = dashLit ∧ formatValue k (some JVal.null) = dashLit) ∧
    (∀ k fs, formatValue k (some (JVal.obj fs)) =
      if strIncludes k.toLower "cohort" then toString fs.length ++ " cohorts"
      else toString fs.length ++ " items") :=
  ⟨⟨rfl, rfl, fun _ => rfl, fun _ => rfl, fun _ => rfl⟩,
    fun l hl => mapStatE_ok l hl,
    fun l hl => mapStatE_throws l hl,
    fun s hs => ⟨mkStatE_ok hs, rfl, rfl⟩,
    fun _ => rfl, fun _ => ⟨rfl, rfl⟩, fun _ _ => rfl⟩

/-- C10 witness: the amended normalization evaluated at concrete inputs — a
well-formed one-element array normalizes element-wise, a non-nullish element
takes the non-throwing path, and an array with a `null` element throws. -/
theorem statsSummary_normalize_amended_witness :
    normalizeStatsE (some (JVal.arr [JVal.obj [("label", JVal.str "churn_rate")]])) =
      .ok ([JVal.obj [("label", JVal.str "churn_rate")]].map mkStat) ∧
    mkStatE (JVal.obj [("label", JVal.str "churn_rate")]) =
      .ok (mkStat (JVal.obj [("label", JVal.str "churn_rate")])) ∧
    normalizeStatsE (some (JVal.arr [JVal.num 1, JVal.null])) =
      .error JsError.typeError := by
  have hne : ∀ x ∈ [JVal.obj [("label", JVal.str "churn_rate")]], x ≠ JVal.null := by
    intro x hx
    rw [List.mem_singleton] at hx
    rw [hx]
    intro hc
    exact JVal.noConfusion hc
  have hmem : JVal.null ∈ [JVal.num 1, JVal.null] :=
    List.mem_cons_of_mem _ (List.mem_singleton.mpr rfl)
  refine ⟨statsSummary_normalize_amended.2.1 _ hne, ?_, ?_⟩
  · exact (statsSummary_normalize_amended.2.2.2.1 _
      (hne _ (List.mem_singleton.mpr rfl))).1
  · exact statsSummary_normalize_amended.2.2.1 _ hmem

/-- C9 counterexample. The claim as stated says caller-supplied data is used
"exactly when that field is present"; but a `chartData` field that is present
with value `null` is ignored and the demo series is rendered instead, because
the component tests JS truthiness, not presence. -/
theorem dataViz_present_null_counterexample :
    hasField (JVal.obj [("chartData", JVal.null)]) "chartData" = true ∧
    safeChartData (some (JVal.obj [("chartData", JVal.null)])) = demoChartData ∧
    demoChartData ≠ JVal.null := by
  refine ⟨rfl, rfl, ?_⟩
  intro h
  exact JVal.noConfusion h

/-- C9 theorem (amended). When the `data` prop is `undefined`, falsy, or its
`chartData` (resp. `pieData`) field is absent or falsy (e.g. `null`), the
component silently renders the built-in six-week demo series (resp. the 72/28
Active/Inactive pie); the caller-supplied field value is used exactly when the
prop is truthy and the field is present with a truthy value. -/
theorem dataViz_fallback_amended :
    (safeChartData none = demoChartData ∧ safePieData none = demoPieData) ∧
    (∀ d, truthy d = false →
      safeChartData (some d) = demoChartData ∧ safePieData (some d) = demoPieData) ∧
    (∀ d, getField d "chartData" = none → safeChartData (some d) = demoChartData) ∧
    (∀ d, getField d "pieData" = none → safePieData (some d) = demoPieData) ∧
    (∀ d v, truthy d = true → getField d "chartData" = some v →
      safeChartData (some d) = (if truthy v then v else demoChartData)) ∧
    (∀ d v, truthy d = true → getField d "pieData" = some v →
      safePieData (some d) = (if truthy v then v else demoPieData)) ∧
    (match demoChartData with | .arr l => l.length | _ => 0) = 6 ∧
    demoPieData = JVal.arr [
      .obj [("name", .str "Active Users"), ("value", .num 72)],
      .obj [("name", .str "Inactive"), ("value", .num 28)]] := by
  refine ⟨⟨rfl, rfl⟩, ?_, ?_, ?_, ?_, ?_, rfl, rfl⟩
  · intro d hd
    constructor <;> simp [safeChartData, safePieData, truthyO, hd]
  · intro d hd
    simp [safeChartData, truthyO, jsField, hd]
  · intro d hd
    simp [safePieData, truthyO, jsField, hd]
  · intro d v hd hv
    by_cases htv : truthy v
    · simp [safeChartData, truthyO, jsField, hd, hv, htv]
    · simp [safeChartData, truthyO, jsField, hd, hv, htv]
  · intro d v hd hv
    by_cases htv : truthy v
    · simp [safePieData, truthyO, jsField, hd, hv, htv]
    · simp [safePieData, truthyO, jsField, hd, hv, htv]

/-- C9 witness: the amended fallback behaviour evaluated at concrete inputs: a
present, truthy (empty-array) `chartData` is passed through unchanged. -/
theorem dataViz_fallback_amended_witness :
    safeChartData (some (JVal.obj [("chartData", JVal.arr [])])) =
      (if truthy (JVal.arr []) then JVal.arr [] else demoChartData) :=
  dataViz_fallback_amended.2.2.2.2.1
    (JVal.obj [("chartData", JVal.arr [])]) (JVal.arr []) rfl rfl

/-- C2 theorem. For every nonempty active/inactive split, the two integer
`pieSeries` values sum to exactly 100 (the rounding remainder is assigned
deterministically to the larger share, ties to the active share). -/
theorem pieSplit_sums_to_100 (active total : Nat) (h : total ≠ 0) :
    ((pieSplit active total).map Prod.snd).sum = 100 ∧ pieSplit active total ≠ [] := by
  simp only [pieSplit, if_neg h]
  split
  · exact ⟨by simp only [List.map_cons, List.map_nil, List.sum_cons, List.sum_nil]; omega,
      List.cons_ne_nil _ _⟩
  · exact ⟨by simp only [List.map_cons, List.map_nil, List.sum_cons, List.sum_nil]; omega,
      List.cons_ne_nil _ _⟩

/-- C2 witness: the split 18 active of 25 users produces the exact 72/28
percentages summing to 100. -/
theorem pieSplit_sums_to_100_witness :
    ((pieSplit 18 25).map Prod.snd).sum = 100 ∧ pieSplit 18 25 ≠ [] :=
  pieSplit_sums_to_100 18 25 (by decide)

/-- C3 theorem. For every dataset and period `p` the churned users are exactly
the users active in period `p − 1`, observed in at least two periods, with no
activity in `p`; the churn rate is that count over the count of all such
users active in `p − 1`; and the rate always lies in `[0, 1]`. -/
theorem churnRate_fraction_and_bounds (ds : Dataset) (p : Int) :
    (∀ u, u ∈ churnNumer ds p ↔
        (u ∈ dsUsers ds ∧ activeAt ds u (p - 1) = true ∧
         2 ≤ (userActivity ds u).length ∧ activeAt ds u p = false)) ∧
    churnRate ds p = (if churnDenom ds p = [] then 0
      else ((churnNumer ds p).length : ℚ) / ((churnDenom ds p).length : ℚ)) ∧
    0 ≤ churnRate ds p ∧ churnRate ds p ≤ 1 := by
  refine ⟨?_, rfl, ?_, ?_⟩
  · intro u
    simp only [churnNumer, churnDenom, List.mem_filter, Bool.and_eq_true,
      decide_eq_true_eq, Bool.not_eq_true']
    tauto
  · unfold churnRate
    split
    · exact le_refl 0
    · positivity
  · unfold churnRate
    split
    · exact zero_le_one
    · rename_i hne
      rw [div_le_one (by exact_mod_cast List.length_pos.mpr hne)]
      have hle : (churnNumer ds p).length ≤ (churnDenom ds p).length :=
        List.length_filter_le _ _
      exact_mod_cast hle

/-- C4 theorem. Every cohort that appears in the computed CohortTable has
retention exactly 100% at week offset 0 (cohorts for which this fails are
excluded from the table rather than included with another offset-0 value). -/
theorem cohortTable_offset0 (ds : Dataset) (w : Int) (rl : List ℚ)
    (h : (w, rl) ∈ cohortTable ds) : rl.head? = some 100 := by
  unfold cohortTable at h
  rw [List.mem_filterMap] at h
  obtain ⟨w', _, hsome⟩ := h
  by_cases hc : cohortMembers ds w' ≠ [] ∧ retention ds w' 0 = 100
  · rw [if_pos hc, Option.some.injEq, Prod.mk.injEq] at hsome
    obtain ⟨rfl, rfl⟩ := hsome
    rw [offsetCount, List.range_succ_eq_map, List.map_cons, List.head?_cons]
    exact congrArg some hc.2
  · rw [if_neg hc] at hsome
    exact Option.noConfusion hsome

/-- C4 witness: on the concrete two-user dataset, the week-0 cohort appears in
the table and its retention row starts at 100%. -/
theorem cohortTable_offset0_witness :
    (0, [(100 : ℚ)]) ∈ cohortTable sampleDataset ∧
    ([(100 : ℚ)] : List ℚ).head? = some 100 := by
  have hret : retention sampleDataset 0 0 = 100 := by
    have hf : (cohortMembers sampleDataset 0).filter
        (fun u => activeAt sampleDataset u ((0 : ℤ) + ((0 : ℕ) : ℤ))) = ["u1", "u2"] := by
      decide
    have hm : cohortMembers sampleDataset 0 = ["u1", "u2"] := by decide
    have hf0 : (["u1", "u2"] : List String).filter
        (fun u => activeAt sampleDataset u 0) = ["u1", "u2"] := by decide
    rw [retention]
    simp only [hm]
    rw [if_neg (by decide : ¬(["u1", "u2"] : List String) = [])]
    norm_num [hf0]
  have htab : cohortTable sampleDataset = [(0, [100])] := by
    rw [cohortTable]
    have hw : cohortWeeks sampleDataset = [0] := by decide
    have ho : offsetCount sampleDataset = 1 := by decide
    rw [hw]
    simp only [List.filterMap_cons, List.filterMap_nil]
    rw [if_pos ⟨by decide, hret⟩, ho]
    rw [(by decide : List.range 1 = [0])]
    simp only [List.map_cons, List.map_nil, hret]
  have hmem : (0, [(100 : ℚ)]) ∈ cohortTable sampleDataset := by
    rw [htab]; exact List.mem_singleton.mpr rfl
  exact ⟨hmem, cohortTable_offset0 sampleDataset 0 [100] hmem⟩

/-- C5 theorem. `load` fails with `IngestionError` if and only if the
`user_id`-equivalent column is entirely absent or zero rows resolve after
parsing; on success the dataset holds exactly the resolvable rows and the
dropped rows are counted in `skippedRows` rather than raised. -/
theorem load_error_contract (t : Table) :
    ((∃ e, load t = .error e) ↔
      (findCol t.header userAliases = none ∨ resolvedRows t = [])) ∧
    (∀ ds, load t = .ok ds →
      ds.records = resolvedRows t ∧ resolvedRows t ≠ [] ∧
      ds.skippedRows = t.rows.length - (resolvedRows t).length) := by
  constructor
  · constructor
    · rintro ⟨e, he⟩
      unfold load at he
      cases hc : findCol t.header userAliases with
      | none => exact Or.inl rfl
      | some ui =>
        rw [hc] at he
        by_cases hr : resolvedRows t = []
        · exact Or.inr hr
        · rw [if_neg hr] at he
          exact Except.noConfusion he
    · intro h
      unfold load
      cases hc : findCol t.header userAliases with
      | none => exact ⟨.noUserColumn, rfl⟩
      | some ui =>
        rcases h with h | h
        · rw [hc] at h
          exact Option.noConfusion h
        · rw [if_pos h]
          exact ⟨.noValidRows, rfl⟩
  · intro ds hds
    unfold load at hds
    cases hc : findCol t.header userAliases with
    | none =>
      rw [hc] at hds
      exact Except.noConfusion hds
    | some ui =>
      rw [hc] at hds
      by_cases hr : resolvedRows t = []
      · rw [if_pos hr] at hds
        exact Except.noConfusion hds
      · rw [if_neg hr] at hds
        injection hds with h2
        rw [← h2]
        exact ⟨rfl, hr, rfl⟩

/-- C6 theorem. When the external summarization call times out or returns a
non-success response, `summarize` returns the fallback summary templated from
the metrics (never the raw failure), the fallback is nonempty, the result is
marked `degraded := true`, and the `metrics`/`visualizationData` facets of the
overall analysis result are unaffected by the service outcome. -/
theorem summarize_fallback_on_failure (ms : List MetricEntry) (resp : SvcResp)
    (h : resp = SvcResp.timeout ∨ ∃ c, resp = SvcResp.httpError c) :
    summarize ms resp = ⟨fallbackSummary ms, true⟩ ∧
    fallbackSummary ms ≠ "" ∧
    ∀ (t : Table) (svc : String → SvcResp),
      (analyze t (fun _ => SvcResp.timeout)).map (fun r => (r.metrics, r.visualizationData)) =
        (analyze t svc).map (fun r => (r.metrics, r.visualizationData)) := by
  refine ⟨?_, ?_, ?_⟩
  · rcases h with rfl | ⟨c, rfl⟩ <;> rfl
  · intro hemp
    have h2 : (fallbackSummary ms).data = "".data := congrArg String.data hemp
    rw [fallbackSummary, String.data_append] at h2
    simp at h2
  · intro t svc
    cases hl : load t <;>
      simp [analyze, analyzeFull, hl, Except.map]

/-- C6 witness: the fallback contract evaluated at the empty metric set, a
timeout response, and the concrete sample upload. -/
theorem summarize_fallback_on_failure_witness :
    summarize [] SvcResp.timeout = ⟨fallbackSummary [], true⟩ ∧
    fallbackSummary [] ≠ "" ∧
    (analyze sampleTable (fun _ => SvcResp.timeout)).map
        (fun r => (r.metrics, r.visualizationData)) =
      (analyze sampleTable sampleSvc).map (fun r => (r.metrics, r.visualizationData)) := by
  obtain ⟨h1, h2, h3⟩ := summarize_fallback_on_failure [] SvcResp.timeout (Or.inl rfl)
  exact ⟨h1, h2, h3 sampleTable sampleSvc⟩

/-- C7 theorem. The pipeline is deterministic: running it twice on the same
input with the same (deterministic) service mock gives literally the same
result including the `degraded` flag, and `metrics`/`visualizationData` are
identical even across different service behaviours. -/
theorem pipeline_idempotent (t : Table) (svc svc' : String → SvcResp) :
    analyzeFull t svc = analyzeFull t svc ∧
    (analyzeFull t svc).map (fun p => (p.1.metrics, p.1.visualizationData)) =
      (analyzeFull t svc').map (fun p => (p.1.metrics, p.1.visualizationData)) := by
  refine ⟨rfl, ?_⟩
  cases hl : load t <;> simp [analyzeFull, hl, Except.map]

/-- C1 theorem. Every successful analysis call returns a single object whose
top-level facets are exactly `metrics`, `visualizationData` (carrying
`chartData` and `pieData`) and `ai_summary`, and the presentation layer's
three reads (`page.tsx` lines 190–192) each resolve to the corresponding
facet. -/
theorem analysis_result_three_facets (t : Table) (svc : String → SvcResp)
    (r : AnalysisResult) (_h : analyze t svc = .ok r) :
    topFields (resultJson r) = ["metrics", "visualizationData", "ai_summary"] ∧
    pageReads (some (resultJson r)) =
      (some (.arr (r.metrics.map metricJson)),
       some (vizJson r.visualizationData),
       some (.str r.ai_summary)) ∧
    topFields (vizJson r.visualizationData) = ["chartData", "pieData"] :=
  ⟨rfl, rfl, rfl⟩

/-- C1 witness: on the concrete sample upload the pipeline succeeds and the
returned object exposes exactly the three facets. -/
theorem analysis_result_three_facets_witness :
    analyze sampleTable sampleSvc = .ok sampleResult ∧
    topFields (resultJson sampleResult) = ["metrics", "visualizationData", "ai_summary"] :=
  ⟨by rfl, (analysis_result_three_facets sampleTable sampleSvc sampleResult (by rfl)).1⟩

/-! ### Tag-safety development for `markdownToHtml` (C8) -/

theorem tags_shape : ∀ t ∈ allowedTags, t.head? = some '<' ∧ '<' ∉ t.tail := by decide

theorem tags_no_nl : ∀ t ∈ allowedTags, '\n' ∉ t := by decide

theorem tags_no_star : ∀ t ∈ allowedTags, '*' ∉ t := by decide

theorem tags_not_extension : ∀ t ∈ allowedTags, ∀ u ∈ allowedTags,
    u.take t.length = t → t = u := by decide

/-- An allowed tag is `'<'` followed by a `'<'`-free tail. -/
theorem tag_cons {t : Str} (ht : t ∈ allowedTags) :
    ∃ t', t = '<' :: t' ∧ '<' ∉ t' := by
  obtain ⟨h1, h2⟩ := tags_shape t ht
  cases t with
  | nil => exact Option.noConfusion h1
  | cons c t' =>
    refine ⟨t', ?_, h2⟩
    rw [List.head?_cons, Option.some.injEq] at h1
    rw [h1]

theorem replC_append (c : Char) (r : Str) :
    ∀ xs ys, replC c r (xs ++ ys) = replC c r xs ++ replC c r ys := by
  intro xs ys
  induction xs with
  | nil => rfl
  | cons x xs ih =>
    by_cases hx : x = c
    · simp [replC, hx, ih]
    · simp [replC, hx, ih]

/-- `replC` preserves the absence of a character distinct from the pattern
when the replacement avoids it. -/
theorem not_mem_replC {x c : Char} {r : Str} (hxr : x ∉ r) :
    ∀ s, x ∉ s → x ∉ replC c r s := by
  intro s hs
  induction s with
  | nil => simp [replC]
  | cons y ys ih =>
    have hxy : x ≠ y := fun h => hs (h ▸ List.mem_cons_self y ys)
    have hys : x ∉ ys := fun h => hs (List.mem_cons_of_mem y h)
    by_cases hy : y = c
    · simp only [replC, if_pos hy, List.mem_append]
      exact fun h => h.elim hxr (ih hys)
    · simp only [replC, if_neg hy, List.mem_cons]
      exact fun h => h.elim hxy (ih hys)

/-- `replC` removes the replaced character when the replacement avoids it. -/
theorem not_mem_replC_self {c : Char} {r : Str} (hcr : c ∉ r) :
    ∀ s, c ∉ replC c r s := by
  intro s
  induction s with
  | nil => simp [replC]
  | cons y ys ih =>
    by_cases hy : y = c
    · simp only [replC, if_pos hy, List.mem_append]
      exact fun h => h.elim hcr ih
    · simp only [replC, if_neg hy, List.mem_cons]
      exact fun h => h.elim (fun he => hy he.symm) ih

theorem replC_of_not_mem {c : Char} {r : Str} :
    ∀ s, c ∉ s → replC c r s = s := by
  intro s hs
  induction s with
  | nil => rfl
  | cons y ys ih =>
    have hy : ¬y = c := fun h => hs (h ▸ List.mem_cons_self y ys)
    rw [replC, if_neg hy, ih (fun h => hs (List.mem_cons_of_mem y h))]

/-- After the escape, the string contains no `<` and no `>` at all. -/
theorem escapeHtml_no_angle (s : Str) : '<' ∉ escapeHtml s ∧ '>' ∉ escapeHtml s := by
  constructor
  · exact not_mem_replC (by decide) _
      (not_mem_replC_self (by decide) _)
  · exact not_mem_replC_self (by decide) _

theorem tagSafe_append {a b : Str} (ha : TagSafe a) (hb : TagSafe b) :
    TagSafe (a ++ b) := by
  induction ha with
  | nil => exact hb
  | chr c s hc _ ih => exact TagSafe.chr c (s ++ b) hc ih
  | tag t s ht _ ih => rw [List.append_assoc]; exact TagSafe.tag t (s ++ b) ht ih

/-- A `'<'`-free string prepended to a tag-safe string is tag-safe. -/
theorem tagSafe_of_no_lt_append {u v : Str} (hu : '<' ∉ u) (hv : TagSafe v) :
    TagSafe (u ++ v) := by
  induction u with
  | nil => exact hv
  | cons c cs ih =>
    have hc : c ≠ '<' := fun h => hu (h ▸ List.mem_cons_self c cs)
    exact TagSafe.chr c (cs ++ v) hc (ih (fun h => hu (List.mem_cons_of_mem c h)))

theorem tagSafe_of_no_lt {u : Str} (hu : '<' ∉ u) : TagSafe u := by
  have := tagSafe_of_no_lt_append hu TagSafe.nil
  rwa [List.append_nil] at this

/-- Dropping the head of a tag-safe string leaves a tag-safe string (allowed
tags contain `<` only at position 0). -/
theorem tagSafe_cons_elim {c : Char} {s : Str} (h : TagSafe (c :: s)) : TagSafe s := by
  generalize hx : c :: s = x at h
  cases h with
  | nil => exact absurd hx (by simp)
  | chr c' s' _ hs =>
    injection hx with _ h2
    rw [h2]
    exact hs
  | tag t s' ht hs =>
    obtain ⟨t', rfl, ht'⟩ := tag_cons ht
    rw [List.cons_append] at hx
    injection hx with _ h2
    rw [h2]
    exact tagSafe_of_no_lt_append ht' hs

/-- Every suffix of a tag-safe string is tag-safe. -/
theorem tagSafe_suffix : ∀ (xs : Str) {s : Str}, TagSafe (xs ++ s) → TagSafe s := by
  intro xs
  induction xs with
  | nil => exact fun h => h
  | cons c cs ih => exact fun h => ih (tagSafe_cons_elim h)

theorem tagSafe_drop {s : Str} (n : Nat) (h : TagSafe s) : TagSafe (s.drop n) := by
  have := tagSafe_suffix (s.take n) (s.take_append_drop n ▸ h)
  exact this

theorem tagSafe_dropWhile {p : Char → Bool} {s : Str} (h : TagSafe s) :
    TagSafe (s.dropWhile p) := by
  induction s with
  | nil => exact h
  | cons c cs ih =>
    rw [List.dropWhile_cons]
    by_cases hp : p c = true
    · simp only [hp, if_true]
      exact ih (tagSafe_cons_elim h)
    · simp only [hp, if_false]
      exact h

/-- Among allowed tags, a tag that extends another equals it. -/
theorem tag_eq_of_extension {t u : Str} (ht : t ∈ allowedTags) (hu : u ∈ allowedTags)
    {e : Str} (h : u = t ++ e) : t = u ∧ e = [] := by
  have htake : u.take t.length = t := by rw [h, List.take_left]
  have heq := tags_not_extension t ht u hu htake
  refine ⟨heq, ?_⟩
  have hlen := congrArg List.length h
  rw [List.length_append, ← heq] at hlen
  have : e.length = 0 := by omega
  exact List.length_eq_zero.mp this

/-- Cutting a tag-safe string just before a `'\n'` leaves a tag-safe prefix
(no allowed tag contains a newline). -/
theorem tagSafe_split_nl {s : Str} (h : TagSafe s) :
    ∀ xs ys, s = xs ++ '\n' :: ys → TagSafe xs := by
  induction h with
  | nil =>
    intro xs ys heq
    exact absurd heq (by simp)
  | chr c s' hc _ ih =>
    intro xs ys heq
    cases xs with
    | nil => exact TagSafe.nil
    | cons x xs' =>
      rw [List.cons_append] at heq
      injection heq with h1 h2
      rw [← h1]
      exact TagSafe.chr c xs' hc (ih xs' ys h2)
  | tag t s' ht _ ih =>
    intro xs ys heq
    rw [List.append_eq_append_iff] at heq
    rcases heq with ⟨a', ha1, ha2⟩ | ⟨c', hc1, hc2⟩
    · rw [ha1]
      exact TagSafe.tag t a' ht (ih a' ys ha2)
    · cases c' with
      | nil =>
        rw [List.append_nil] at hc1
        rw [← hc1]
        have := TagSafe.tag t [] ht TagSafe.nil
        rwa [List.append_nil] at this
      | cons d c'' =>
        exfalso
        rw [List.cons_append] at hc2
        injection hc2 with hd _
        apply tags_no_nl t ht
        rw [hc1]
        apply List.mem_append_right
        rw [hd]
        exact List.mem_cons_self d c''

/-- Cutting a tag-safe string around an occurrence of an allowed tag leaves
tag-safe pieces on both sides (any `<` must start a whole allowed tag, and no
allowed tag extends another). -/
theorem tagSafe_split_tag {s : Str} (h : TagSafe s) {t₀ : Str}
    (ht0 : t₀ ∈ allowedTags) :
    ∀ xs ys, s = xs ++ t₀ ++ ys → TagSafe xs ∧ TagSafe ys := by
  obtain ⟨t₀', ht0eq, ht0'⟩ := tag_cons ht0
  induction h with
  | nil =>
    intro xs ys heq
    rw [List.append_assoc] at heq
    have := List.append_eq_nil.mp heq.symm
    rw [ht0eq] at this
    exact absurd this.2 (by simp)
  | chr c s' hc _ ih =>
    intro xs ys heq
    cases xs with
    | nil =>
      rw [List.nil_append, ht0eq, List.cons_append] at heq
      injection heq with h1 _
      exact absurd h1 hc
    | cons x xs' =>
      rw [List.cons_append, List.cons_append] at heq
      injection heq with h1 h2
      obtain ⟨hxs, hys⟩ := ih xs' ys h2
      rw [← h1]
      exact ⟨TagSafe.chr c xs' hc hxs, hys⟩
  | tag t s' ht hts ih =>
    intro xs ys heq
    rw [List.append_assoc] at heq
    rw [List.append_eq_append_iff] at heq
    rcases heq with ⟨a', ha1, ha2⟩ | ⟨c', hc1, hc2⟩
    · obtain ⟨hxs, hys⟩ := ih a' ys (by rw [ha2, List.append_assoc])
      rw [ha1]
      exact ⟨TagSafe.tag t a' ht hxs, hys⟩
    · cases c' with
      | nil =>
        rw [List.append_nil] at hc1
        rw [List.nil_append] at hc2
        constructor
        · rw [← hc1]
          have := TagSafe.tag t [] ht TagSafe.nil
          rwa [List.append_nil] at this
        · exact tagSafe_suffix t₀ (hc2 ▸ hts)
      | cons d c'' =>
        obtain ⟨t', hteq, ht'⟩ := tag_cons ht
        rw [ht0eq, List.cons_append] at hc2
        injection hc2 with hd hrest
        cases xs with
        | cons w ws =>
          exfalso
          rw [hteq, List.cons_append] at hc1
          injection hc1 with _ h2
          apply ht'
          rw [h2, ← hd]
          apply List.mem_append_right
          exact List.mem_cons_self _ _
        | nil =>
          rw [List.nil_append] at hc1
          refine ⟨TagSafe.nil, ?_⟩
          -- here t = c' = d :: c'', so t₀ ++ ys = t ++ s'
          have hkey : t₀ ++ ys = t ++ s' := by
            rw [hc1, ht0eq, List.cons_append, hd, hrest, List.cons_append]
            rfl
          rw [List.append_eq_append_iff] at hkey
          rcases hkey with ⟨e, he1, he2⟩ | ⟨e, he1, he2⟩
          · obtain ⟨_, rfl⟩ := tag_eq_of_extension ht0 ht he1
            rw [List.nil_append] at he2
            rw [he2]
            exact hts
          · obtain ⟨_, rfl⟩ := tag_eq_of_extension ht ht0 he1
            rw [List.nil_append] at he2
            rw [← he2]
            exact hts

theorem mem_of_mem_dropWhile {p : Char → Bool} :
    ∀ (l : Str) (c : Char), c ∈ l.dropWhile p → c ∈ l := by
  intro l c h
  induction l with
  | nil => exact h
  | cons x xs ih =>
    rw [List.dropWhile_cons] at h
    by_cases hp : p x = true
    · simp only [hp, if_true] at h
      exact List.mem_cons_of_mem x (ih h)
    · simp only [hp, if_false] at h
      exact h

theorem splitNl_ne_nil : ∀ s : Str, splitNl s ≠ [] := by
  intro s
  cases s with
  | nil => simp [splitNl]
  | cons c rest =>
    rw [splitNl]
    by_cases hc : c = '\n'
    · simp [hc]
    · simp only [hc, if_false]
      cases splitNl rest <;> simp

theorem splitNl_of_no_nl : ∀ l : Str, '\n' ∉ l → splitNl l = [l] := by
  intro l hl
  induction l with
  | nil => rfl
  | cons c cs ih =>
    have hc : ¬c = '\n' := fun h => hl (h ▸ List.mem_cons_self c cs)
    rw [splitNl, if_neg hc, ih (fun h => hl (List.mem_cons_of_mem c h))]

theorem splitNl_append_nl : ∀ (l r : Str), '\n' ∉ l →
    splitNl (l ++ '\n' :: r) = l :: splitNl r := by
  intro l r hl
  induction l with
  | nil => simp [splitNl]
  | cons c cs ih =>
    have hc : ¬c = '\n' := fun h => hl (h ▸ List.mem_cons_self c cs)
    rw [List.cons_append, splitNl, if_neg hc, ih (fun h => hl (List.mem_cons_of_mem c h))]

theorem splitNl_joinNl : ∀ ls : List Str, ls ≠ [] → (∀ l ∈ ls, '\n' ∉ l) →
    splitNl (joinNl ls) = ls
  | [], h, _ => absurd rfl h
  | [l], _, hl => by
      show splitNl l = [l]
      exact splitNl_of_no_nl l (hl l (by simp))
  | l :: l' :: ls, _, hl => by
      show splitNl (l ++ '\n' :: joinNl (l' :: ls)) = l :: l' :: ls
      rw [splitNl_append_nl _ _ (hl l (by simp))]
      rw [splitNl_joinNl (l' :: ls) (by simp) (fun x hx => hl x (List.mem_cons_of_mem l hx))]

theorem joinNl_splitNl : ∀ s : Str, joinNl (splitNl s) = s := by
  intro s
  induction s with
  | nil => rfl
  | cons c rest ih =>
    rw [splitNl]
    by_cases hc : c = '\n'
    · rw [if_pos hc]
      obtain ⟨l₀, ls, hsplit⟩ : ∃ l₀ ls, splitNl rest = l₀ :: ls := by
        cases hsp : splitNl rest with
        | nil => exact absurd hsp (splitNl_ne_nil rest)
        | cons a b => exact ⟨a, b, rfl⟩
      rw [hsplit]
      show '\n' :: joinNl (l₀ :: ls) = c :: rest
      rw [hc, ← hsplit, ih]
    · rw [if_neg hc]
      obtain ⟨l₀, ls, hsplit⟩ : ∃ l₀ ls, splitNl rest = l₀ :: ls := by
        cases hsp : splitNl rest with
        | nil => exact absurd hsp (splitNl_ne_nil rest)
        | cons a b => exact ⟨a, b, rfl⟩
      rw [hsplit]
      cases ls with
      | nil =>
        show c :: l₀ = c :: rest
        have := ih
        rw [hsplit] at this
        exact congrArg (c :: ·) this
      | cons l₁ ls' =>
        show (c :: l₀) ++ '\n' :: joinNl (l₁ :: ls') = c :: rest
        have := ih
        rw [hsplit] at this
        rw [← this]
        rfl

theorem mem_joinNl_of_mem : ∀ (ls : List Str) (l : Str) (c : Char),
    l ∈ ls → c ∈ l → c ∈ joinNl ls := by
  intro ls
  induction ls with
  | nil => intro l c h; exact absurd h (by simp)
  | cons l₀ ls' ih =>
    intro l c hl hc
    cases ls' with
    | nil =>
      rw [List.mem_singleton] at hl
      show c ∈ l₀
      exact hl ▸ hc
    | cons l₁ ls'' =>
      show c ∈ l₀ ++ '\n' :: joinNl (l₁ :: ls'')
      rcases List.mem_cons.mp hl with rfl | hl'
      · exact List.mem_append_left _ hc
      · exact List.mem_append_right _ (List.mem_cons_of_mem _ (ih l c hl' hc))

/-- Characters of a line of `splitNl s` are characters of `s`. -/
theorem mem_of_mem_splitNl {s l : Str} {c : Char} (hl : l ∈ splitNl s) (hc : c ∈ l) :
    c ∈ s := by
  have := mem_joinNl_of_mem (splitNl s) l c hl hc
  rwa [joinNl_splitNl] at this

/-- Lines produced by `splitNl` are newline-free. -/
theorem splitNl_no_nl : ∀ (s : Str), ∀ l ∈ splitNl s, '\n' ∉ l := by
  intro s
  induction s with
  | nil =>
    intro l hl
    simp only [splitNl, List.mem_singleton] at hl
    simp [hl]
  | cons c rest ih =>
    intro l hl
    rw [splitNl] at hl
    by_cases hc : c = '\n'
    · rw [if_pos hc] at hl
      rcases List.mem_cons.mp hl with rfl | hl'
      · simp
      · exact ih l hl'
    · rw [if_neg hc] at hl
      obtain ⟨l₀, ls, hsplit⟩ : ∃ l₀ ls, splitNl rest = l₀ :: ls := by
        cases hsp : splitNl rest with
        | nil => exact absurd hsp (splitNl_ne_nil rest)
        | cons a b => exact ⟨a, b, rfl⟩
      rw [hsplit] at hl
      rcases List.mem_cons.mp hl with rfl | hl'
      · intro hmem
        rcases List.mem_cons.mp hmem with h | h
        · exact hc h.symm
        · exact ih l₀ (hsplit ▸ List.mem_cons_self l₀ ls) h
      · exact ih l (hsplit ▸ List.mem_cons_of_mem l₀ hl')

theorem take_ne_replicate_hash {X : Str} {n : Nat} (hn : n ≠ 0) :
    ('<' :: X).take n ≠ List.replicate n '#' := by
  obtain ⟨n', rfl⟩ := Nat.exists_eq_succ_of_ne_zero hn
  rw [List.take_succ_cons, List.replicate_succ]
  intro h
  injection h with h1 _
  exact absurd h1 (by decide)

/-- One heading rewrite keeps the `HLine` shape of a line. -/
theorem headingRule_hline {n : Nat} (hn : n = 1 ∨ n = 2 ∨ n = 3) {l : Str}
    (hl : HLine l) : HLine (headingRule n l) := by
  unfold headingRule
  split
  · rename_i hcond
    rcases hl with hnolt | ⟨k, m, hk, _, hleq⟩
    · right
      refine ⟨n, (l.drop n).dropWhile isWs, hn, ?_, rfl⟩
      intro hmem
      exact hnolt (List.drop_subset n l (mem_of_mem_dropWhile _ _ hmem))
    · exfalso
      have hne : n ≠ 0 := by rcases hn with rfl | rfl | rfl <;> decide
      have hmem : hOpen k ∈ allowedTags := by rcases hk with rfl | rfl | rfl <;> decide
      obtain ⟨t', hkeq, _⟩ := tag_cons hmem
      rw [hleq, hkeq, List.cons_append, List.cons_append] at hcond
      exact take_ne_replicate_hash hne hcond.1
  · exact hl

/-- One heading rewrite keeps lines newline-free. -/
theorem headingRule_no_nl {n : Nat} (hn : n = 1 ∨ n = 2 ∨ n = 3) {l : Str}
    (hl : '\n' ∉ l) : '\n' ∉ headingRule n l := by
  unfold headingRule
  split
  · intro hmem
    have hmemO : hOpen n ∈ allowedTags := by rcases hn with rfl | rfl | rfl <;> decide
    have hmemC : hClose n ∈ allowedTags := by rcases hn with rfl | rfl | rfl <;> decide
    rcases List.mem_append.mp hmem with h | h
    · rcases List.mem_append.mp h with h' | h'
      · exact tags_no_nl _ hmemO h'
      · exact hl (List.drop_subset n l (mem_of_mem_dropWhile _ _ h'))
    · exact tags_no_nl _ hmemC h
  · exact hl

/-- A heading pass maps the lines pointwise and keeps the line invariant. -/
theorem headingPhase_lines {n : Nat} (hn : n = 1 ∨ n = 2 ∨ n = 3) (s : Str)
    (h : ∀ l ∈ splitNl s, HLine l) :
    splitNl (headingPhase n s) = (splitNl s).map (headingRule n) ∧
    ∀ l ∈ splitNl (headingPhase n s), HLine l := by
  have hnl : ∀ l ∈ (splitNl s).map (headingRule n), '\n' ∉ l := by
    intro l hl
    obtain ⟨l₀, hl₀, rfl⟩ := List.mem_map.mp hl
    exact headingRule_no_nl hn (splitNl_no_nl s l₀ hl₀)
  have hsplit : splitNl (headingPhase n s) = (splitNl s).map (headingRule n) := by
    unfold headingPhase
    refine splitNl_joinNl _ ?_ hnl
    intro hmap
    exact splitNl_ne_nil s (List.map_eq_nil_iff.mp hmap)
  refine ⟨hsplit, ?_⟩
  rw [hsplit]
  intro l hl
  obtain ⟨l₀, hl₀, rfl⟩ := List.mem_map.mp hl
  exact headingRule_hline hn (h l₀ hl₀)

theorem take_one_eq_cons {c : Char} {l : Str} (h : l.take 1 = [c]) :
    l = c :: l.drop 1 := by
  cases l with
  | nil => exact absurd h (by simp)
  | cons x xs =>
    simp only [List.take_succ_cons, List.take_zero] at h
    injection h with h1 _
    simp [h1]

theorem boldA_nil : ∀ f, boldA f [] = [] := by
  intro f
  cases f <;> rfl

/-- Characterization of a successful lazy-close search: the input is the
capture, the closing `**`, and the remainder, with a newline-free capture. -/
theorem findClose_eq : ∀ (s cap r2 : Str), findClose s = some (cap, r2) →
    s = cap ++ '*' :: '*' :: r2 ∧ '\n' ∉ cap := by
  intro s
  induction s with
  | nil => intro cap r2 h; exact Option.noConfusion h
  | cons c rest ih =>
    intro cap r2 h
    rw [findClose] at h
    by_cases h1 : c = '*' ∧ rest.take 1 = ['*']
    · rw [if_pos h1] at h
      rw [Option.some.injEq, Prod.mk.injEq] at h
      obtain ⟨rfl, rfl⟩ := h
      refine ⟨?_, by simp⟩
      rw [List.nil_append, h1.1, ← take_one_eq_cons h1.2]
    · rw [if_neg h1] at h
      by_cases h2 : c = '\n'
      · rw [if_pos h2] at h
        exact Option.noConfusion h
      · rw [if_neg h2] at h
        cases hfc : findClose rest with
        | none => rw [hfc] at h; exact Option.noConfusion h
        | some p =>
          rw [hfc] at h
          obtain ⟨p1, p2⟩ := p
          simp only [Option.map_some'] at h
          rw [Option.some.injEq, Prod.mk.injEq] at h
          obtain ⟨rfl, rfl⟩ := h
          obtain ⟨heq, hnl⟩ := ih p1 p2 hfc
          constructor
          · rw [List.cons_append, ← heq]
          · intro hmem
            rcases List.mem_cons.mp hmem with h' | h'
            · exact h2 h'.symm
            · exact hnl h'

/-- A star-free string passes through the bold rewrite unchanged. -/
theorem boldA_no_star_id : ∀ (f : Nat) (s : Str), '*' ∉ s → boldA f s = s := by
  intro f
  induction f with
  | zero => intro s _; rfl
  | succ f' ih =>
    intro s hs
    cases s with
    | nil => rfl
    | cons c rest =>
      have hc : ¬c = '*' := fun h => hs (h ▸ List.mem_cons_self c rest)
      rw [boldA, if_neg (fun h => hc h.1)]
      rw [ih rest (fun h => hs (List.mem_cons_of_mem c h))]

/-- The bold rewrite is insensitive to the exact fuel, provided it is at
least the input length. -/
theorem boldA_fuel : ∀ (n : Nat) (s : Str), s.length ≤ n →
    ∀ f g, s.length ≤ f → s.length ≤ g → boldA f s = boldA g s := by
  intro n
  induction n using Nat.strong_induction_on with
  | _ n ih =>
    intro s hsn f g hf hg
    cases s with
    | nil => rw [boldA_nil, boldA_nil]
    | cons c rest =>
      cases f with
      | zero => simp at hf
      | succ f' =>
        cases g with
        | zero => simp at hg
        | succ g' =>
          rw [boldA, boldA]
          simp only [List.length_cons] at hsn hf hg
          have hrest : rest.length < n := by omega
          by_cases h1 : c = '*' ∧ rest.take 1 = ['*']
          · rw [if_pos h1, if_pos h1]
            cases hfc : findClose (rest.drop 1) with
            | none =>
              exact congrArg (c :: ·)
                (ih rest.length hrest rest le_rfl f' g' (by omega) (by omega))
            | some p =>
              obtain ⟨cap, r2⟩ := p
              have hr2 : r2.length < rest.length := by
                obtain ⟨heq, _⟩ := findClose_eq _ _ _ hfc
                have hlen := congrArg List.length heq
                have hd : (rest.drop 1).length = rest.length - 1 := by simp
                rw [hd] at hlen
                simp only [List.length_append, List.length_cons] at hlen
                have hpos : 0 < rest.length := by
                  cases rest with
                  | nil => exact absurd h1.2 (by simp)
                  | cons _ _ => simp
                omega
              exact congrArg (strongOpen ++ cap ++ strongClose ++ ·)
                (ih rest.length hrest r2 (le_of_lt hr2) f' g' (by omega) (by omega))
          · rw [if_neg h1, if_neg h1]
            exact congrArg (c :: ·)
              (ih rest.length hrest rest le_rfl f' g' (by omega) (by omega))

/-- Adequate fuel computes `boldRepl`. -/
theorem boldA_eq_boldRepl {f : Nat} {s : Str} (hf : s.length ≤ f) :
    boldA f s = boldRepl s :=
  boldA_fuel s.length s le_rfl f s.length hf le_rfl

/-- The bold rewrite skips over a star-free prefix. -/
theorem bold_skip : ∀ (xs ys : Str), '*' ∉ xs →
    boldRepl (xs ++ ys) = xs ++ boldRepl ys := by
  intro xs
  induction xs with
  | nil => intro ys _; rfl
  | cons c cs ih =>
    intro ys hxs
    have hc : ¬c = '*' := fun h => hxs (h ▸ List.mem_cons_self c cs)
    have hcs : '*' ∉ cs := fun h => hxs (List.mem_cons_of_mem c h)
    show boldA ((c :: (cs ++ ys)).length) (c :: (cs ++ ys)) = c :: (cs ++ boldRepl ys)
    rw [List.length_cons, boldA, if_neg (fun h => hc h.1)]
    rw [boldA_eq_boldRepl (by simp), ih ys hcs]

/-- If a closing `**` is found inside `xs ++ zs` and `zs` is star-free, the
whole match lies inside `xs`. -/
theorem star_split {xs zs cap r2 : Str} (hzs : '*' ∉ zs)
    (heq : xs ++ zs = cap ++ '*' :: '*' :: r2) :
    ∃ c₃, xs = cap ++ '*' :: '*' :: c₃ ∧ r2 = c₃ ++ zs := by
  rw [List.append_eq_append_iff] at heq
  rcases heq with ⟨a', _, ha2⟩ | ⟨c', hc1, hc2⟩
  · exfalso
    apply hzs
    rw [ha2]
    exact List.mem_append_right a' (List.mem_cons_self _ _)
  · cases c' with
    | nil =>
      exfalso
      apply hzs
      rw [List.nil_append] at hc2
      rw [← hc2]
      exact List.mem_cons_self _ _
    | cons e c'' =>
      rw [List.cons_append] at hc2
      injection hc2 with he hc2'
      cases c'' with
      | nil =>
        exfalso
        apply hzs
        rw [List.nil_append] at hc2'
        rw [← hc2']
        exact List.mem_cons_self _ _
      | cons e2 c₃ =>
        rw [List.cons_append] at hc2'
        injection hc2' with he2 hc2''
        refine ⟨c₃, ?_, hc2''⟩
        rw [hc1, ← he, ← he2]

/-- The bold rewrite of a string made of a `<`-free prefix followed by a
star-free tag-safe suffix is tag-safe: captures stay inside the `<`-free
region and only whole `<strong>` tags are introduced. -/
theorem boldA_safe : ∀ (f : Nat) (xs zs : Str), '<' ∉ xs → '*' ∉ zs →
    TagSafe zs → TagSafe (boldA f (xs ++ zs)) := by
  intro f
  induction f with
  | zero =>
    intro xs zs hxs hzs hts
    exact tagSafe_of_no_lt_append hxs hts
  | succ f' ih =>
    intro xs zs hxs hzs hts
    cases xs with
    | nil =>
      rw [List.nil_append, boldA_no_star_id _ zs hzs]
      exact hts
    | cons cx xs₁ =>
      have hcx : cx ≠ '<' := fun h => hxs (h ▸ List.mem_cons_self _ _)
      have hxs₁ : '<' ∉ xs₁ := fun h => hxs (List.mem_cons_of_mem _ h)
      rw [List.cons_append]
      rw [boldA]
      by_cases h1 : cx = '*' ∧ (xs₁ ++ zs).take 1 = ['*']
      · rw [if_pos h1]
        cases hfc : findClose ((xs₁ ++ zs).drop 1) with
        | none =>
          exact TagSafe.chr _ _ hcx (ih xs₁ zs hxs₁ hzs hts)
        | some p =>
          obtain ⟨cap, r2⟩ := p
          obtain ⟨heq2, _⟩ := findClose_eq _ _ _ hfc
          cases xs₁ with
          | nil =>
            exfalso
            rw [List.nil_append] at h1
            apply hzs
            rw [take_one_eq_cons h1.2]
            exact List.mem_cons_self _ _
          | cons d xs₂ =>
            have hdrop : ((d :: xs₂) ++ zs).drop 1 = xs₂ ++ zs := by simp
            rw [hdrop] at heq2
            obtain ⟨c₃, hxseq, hr2⟩ := star_split hzs heq2
            have hcap : '<' ∉ cap := by
              intro h
              apply hxs₁
              apply List.mem_cons_of_mem d
              rw [hxseq]
              exact List.mem_append_left _ h
            have hc₃ : '<' ∉ c₃ := by
              intro h
              apply hxs₁
              apply List.mem_cons_of_mem d
              rw [hxseq]
              exact List.mem_append_right _
                (List.mem_cons_of_mem _ (List.mem_cons_of_mem _ h))
            have hrec : TagSafe (boldA f' r2) := by
              rw [hr2]
              exact ih c₃ zs hc₃ hzs hts
            simp only [List.append_assoc]
            exact TagSafe.tag _ _ (by decide)
              (tagSafe_of_no_lt_append hcap (TagSafe.tag _ _ (by decide) hrec))
      · rw [if_neg h1]
        exact TagSafe.chr _ _ hcx (ih xs₁ zs hxs₁ hzs hts)

/-- The bold rewrite of an `HLine`-shaped line is tag-safe. -/
theorem boldRepl_line_safe {l : Str} (hl : HLine l) : TagSafe (boldRepl l) := by
  rcases hl with hnolt | ⟨n, m, hn, hm, hleq⟩
  · have := boldA_safe l.length l [] hnolt (by simp) TagSafe.nil
    rw [List.append_nil] at this
    exact this
  · have hOmem : hOpen n ∈ allowedTags := by rcases hn with rfl | rfl | rfl <;> decide
    have hCmem : hClose n ∈ allowedTags := by rcases hn with rfl | rfl | rfl <;> decide
    have hOstar : '*' ∉ hOpen n := tags_no_star _ hOmem
    have hCstar : '*' ∉ hClose n := tags_no_star _ hCmem
    have hCsafe : TagSafe (hClose n) := by
      have := TagSafe.tag (hClose n) [] hCmem TagSafe.nil
      rwa [List.append_nil] at this
    rw [hleq, List.append_assoc, bold_skip _ _ hOstar]
    refine TagSafe.tag _ _ hOmem ?_
    show TagSafe (boldA (m ++ hClose n).length (m ++ hClose n))
    exact boldA_safe _ m (hClose n) hm hCstar hCsafe

/-- The bold rewrite introduces no newline. -/
theorem boldA_no_nl : ∀ (f : Nat) (s : Str), '\n' ∉ s → '\n' ∉ boldA f s := by
  intro f
  induction f with
  | zero => intro s hs; exact hs
  | succ f' ih =>
    intro s hs
    cases s with
    | nil => simp [boldA]
    | cons c rest =>
      have hc : ¬('\n' = c) := fun h => hs (h ▸ List.mem_cons_self c rest)
      have hrest : '\n' ∉ rest := fun h => hs (List.mem_cons_of_mem c h)
      rw [boldA]
      by_cases h1 : c = '*' ∧ rest.take 1 = ['*']
      · rw [if_pos h1]
        cases hfc : findClose (rest.drop 1) with
        | none =>
          intro hmem
          rcases List.mem_cons.mp hmem with h | h
          · exact hc h
          · exact ih rest hrest h
        | some p =>
          obtain ⟨cap, r2⟩ := p
          obtain ⟨heq, _⟩ := findClose_eq _ _ _ hfc
          have hsub : '\n' ∉ rest.drop 1 :=
            fun h => hrest (List.drop_subset 1 rest h)
          have hcap : '\n' ∉ cap := by
            intro h
            apply hsub
            rw [heq]
            exact List.mem_append_left _ h
          have hr2 : '\n' ∉ r2 := by
            intro h
            apply hsub
            rw [heq]
            exact List.mem_append_right _
              (List.mem_cons_of_mem _ (List.mem_cons_of_mem _ h))
          intro hmem
          rcases List.mem_append.mp hmem with h | h
          · rcases List.mem_append.mp h with h' | h'
            · rcases List.mem_append.mp h' with h'' | h''
              · exact tags_no_nl _ (by decide) h''
              · exact hcap h''
            · exact tags_no_nl _ (by decide) h'
          · exact ih r2 hr2 h
      · rw [if_neg h1]
        intro hmem
        rcases List.mem_cons.mp hmem with h | h
        · exact hc h
        · exact ih rest hrest h

/-- The lazy-close search does not look past a newline. -/
theorem findClose_append_nl : ∀ (a b : Str), '\n' ∉ a →
    findClose (a ++ '\n' :: b) =
      (findClose a).map (fun p => (p.1, p.2 ++ '\n' :: b)) := by
  intro a
  induction a with
  | nil =>
    intro b _
    rw [List.nil_append, findClose, findClose]
    rw [if_neg (show ¬('\n' = '*' ∧ b.take 1 = ['*']) from fun h => absurd h.1 (by decide)),
      if_pos rfl]
    rfl
  | cons c a' ih =>
    intro b ha
    have hc : ¬c = '\n' := fun h => ha (h ▸ List.mem_cons_self c a')
    have ha' : '\n' ∉ a' := fun h => ha (List.mem_cons_of_mem c h)
    rw [List.cons_append, findClose, findClose]
    have htk : ((a' ++ '\n' :: b).take 1 = ['*']) ↔ (a'.take 1 = ['*']) := by
      cases a' with
      | nil => simp
      | cons d a'' => simp
    by_cases h1 : c = '*' ∧ a'.take 1 = ['*']
    · rw [if_pos ⟨h1.1, htk.mpr h1.2⟩, if_pos h1]
      obtain ⟨a'', rfl⟩ : ∃ a'', a' = '*' :: a'' := by
        cases a' with
        | nil => exact absurd h1.2 (by simp)
        | cons d a'' =>
          simp only [List.take_succ_cons, List.take_zero] at h1
          obtain ⟨_, h2⟩ := h1
          injection h2 with hd _
          exact ⟨a'', by rw [hd]⟩
      rfl
    · have h1' : ¬(c = '*' ∧ (a' ++ '\n' :: b).take 1 = ['*']) := by
        intro hcon
        exact h1 ⟨hcon.1, htk.mp hcon.2⟩
      rw [if_neg h1', if_neg h1, if_neg hc, if_neg hc]
      rw [ih b ha']
      cases findClose a' <;> rfl

/-- The bold rewrite distributes over a newline. -/
theorem bold_append_nl : ∀ (n : Nat) (a : Str), a.length ≤ n → ∀ (b : Str), '\n' ∉ a →
    boldRepl (a ++ '\n' :: b) = boldRepl a ++ '\n' :: boldRepl b := by
  intro n
  induction n using Nat.strong_induction_on with
  | _ n ih =>
    intro a han b ha
    cases a with
    | nil =>
      show boldA ('\n' :: b).length ('\n' :: b) = [] ++ '\n' :: boldRepl b
      rw [List.length_cons, boldA, List.nil_append]
      have hcond : ¬('\n' = '*' ∧ b.take 1 = ['*']) := fun h => absurd h.1 (by decide)
      rw [if_neg hcond]
      exact congrArg ('\n' :: ·) (boldA_eq_boldRepl le_rfl)
    | cons c a' =>
      have hc : ¬c = '\n' := fun h => ha (h ▸ List.mem_cons_self c a')
      have ha' : '\n' ∉ a' := fun h => ha (List.mem_cons_of_mem c h)
      have hlen : a'.length < n := by
        simp only [List.length_cons] at han
        omega
      have htk : ((a' ++ '\n' :: b).take 1 = ['*']) ↔ (a'.take 1 = ['*']) := by
        cases a' with
        | nil => simp
        | cons d a'' => simp
      show boldA (c :: (a' ++ '\n' :: b)).length (c :: (a' ++ '\n' :: b)) =
        boldA (c :: a').length (c :: a') ++ '\n' :: boldRepl b
      rw [List.length_cons, List.length_cons, boldA, boldA]
      by_cases h1 : c = '*' ∧ a'.take 1 = ['*']
      · rw [if_pos ⟨h1.1, htk.mpr h1.2⟩, if_pos h1]
        obtain ⟨a'', rfl⟩ : ∃ a'', a' = '*' :: a'' := by
          cases a' with
          | nil => exact absurd h1.2 (by simp)
          | cons d a'' =>
            simp only [List.take_succ_cons, List.take_zero] at h1
            obtain ⟨_, h2⟩ := h1
            injection h2 with hd _
            exact ⟨a'', by rw [hd]⟩
        have hdrop1 : (('*' :: a'') ++ '\n' :: b).drop 1 = a'' ++ '\n' :: b := by simp
        have hdrop2 : ('*' :: a'').drop 1 = a'' := by simp
        rw [hdrop1, hdrop2]
        have ha'' : '\n' ∉ a'' := fun h => ha' (List.mem_cons_of_mem _ h)
        rw [findClose_append_nl a'' b ha'']
        cases hfc : findClose a'' with
        | none =>
          show c :: boldA (('*' :: a'') ++ '\n' :: b).length (('*' :: a'') ++ '\n' :: b) =
            (c :: boldA ('*' :: a'').length ('*' :: a'')) ++ '\n' :: boldRepl b
          rw [boldA_eq_boldRepl (by simp), boldA_eq_boldRepl (le_refl _)]
          rw [ih ('*' :: a'').length hlen ('*' :: a'') le_rfl b ha']
          rfl
        | some p =>
          obtain ⟨cap, r2⟩ := p
          obtain ⟨heq, _⟩ := findClose_eq _ _ _ hfc
          have hr2len : r2.length < n := by
            have := congrArg List.length heq
            simp only [List.length_append, List.length_cons] at this
            simp only [List.length_cons] at han
            omega
          have hr2nl : '\n' ∉ r2 := by
            intro h
            apply ha''
            rw [heq]
            exact List.mem_append_right _
              (List.mem_cons_of_mem _ (List.mem_cons_of_mem _ h))
          show strongOpen ++ cap ++ strongClose ++
              boldA (('*' :: a'') ++ '\n' :: b).length (r2 ++ '\n' :: b) =
            (strongOpen ++ cap ++ strongClose ++ boldA ('*' :: a'').length r2) ++
              '\n' :: boldRepl b
          have hfuel1 : (r2 ++ '\n' :: b).length ≤ (('*' :: a'') ++ '\n' :: b).length := by
            have := congrArg List.length heq
            simp only [List.length_append, List.length_cons] at this ⊢
            omega
          have hfuel2 : r2.length ≤ ('*' :: a'').length := by
            have := congrArg List.length heq
            simp only [List.length_append, List.length_cons] at this ⊢
            omega
          rw [boldA_eq_boldRepl hfuel1, boldA_eq_boldRepl hfuel2]
          rw [ih r2.length hr2len r2 le_rfl b hr2nl]
          simp [List.append_assoc]
      · have h1' : ¬(c = '*' ∧ (a' ++ '\n' :: b).take 1 = ['*']) := by
          intro hcon
          exact h1 ⟨hcon.1, htk.mp hcon.2⟩
        rw [if_neg h1', if_neg h1]
        rw [boldA_eq_boldRepl (by simp), boldA_eq_boldRepl (le_refl _)]
        rw [ih a'.length hlen a' le_rfl b ha']
        rfl

/-- The bold rewrite acts line by line. -/
theorem bold_join : ∀ ls : List Str, (∀ l ∈ ls, '\n' ∉ l) →
    boldRepl (joinNl ls) = joinNl (ls.map boldRepl)
  | [], _ => rfl
  | [l], _ => rfl
  | l :: l' :: ls, hnl => by
      show boldRepl (l ++ '\n' :: joinNl (l' :: ls)) =
        joinNl (boldRepl l :: (l' :: ls).map boldRepl)
      rw [bold_append_nl l.length l le_rfl _ (hnl l (by simp))]
      rw [bold_join (l' :: ls) (fun x hx => hnl x (List.mem_cons_of_mem l hx))]
      rfl

theorem eq_take_append {l p : Str} {n : Nat} (h : l.take n = p) :
    l = p ++ l.drop n := by
  rw [← h]
  exact (l.take_append_drop n).symm

theorem liClose_safe : TagSafe liClose := by
  have := TagSafe.tag liClose [] (by decide) TagSafe.nil
  rwa [List.append_nil] at this

/-- One list rewrite keeps a line tag-safe (the capture is a suffix of the
line, and only whole `<li>` tags are added). -/
theorem listRule_safe {l : Str} (hl : TagSafe l) : TagSafe (listRule l) := by
  unfold listRule
  split
  · simp only [List.append_assoc]
    exact TagSafe.tag _ _ (by decide)
      (tagSafe_append (tagSafe_drop 2 hl) liClose_safe)
  · split
    · simp only [List.append_assoc]
      exact TagSafe.tag _ _ (by decide)
        (tagSafe_append (tagSafe_drop 2 (tagSafe_dropWhile hl)) liClose_safe)
    · exact hl

/-- One list rewrite keeps lines newline-free. -/
theorem listRule_no_nl {l : Str} (hl : '\n' ∉ l) : '\n' ∉ listRule l := by
  unfold listRule
  split
  · intro hmem
    rcases List.mem_append.mp hmem with h | h
    · rcases List.mem_append.mp h with h' | h'
      · exact tags_no_nl _ (by decide) h'
      · exact hl (List.drop_subset 2 l h')
    · exact tags_no_nl _ (by decide) h
  · split
    · intro hmem
      rcases List.mem_append.mp hmem with h | h
      · rcases List.mem_append.mp h with h' | h'
        · exact tags_no_nl _ (by decide) h'
        · exact hl (mem_of_mem_dropWhile _ _ (List.drop_subset 2 _ h'))
      · exact tags_no_nl _ (by decide) h
    · exact hl

/-- The list pass maps the lines pointwise. -/
theorem listPhase_lines (s : Str) :
    splitNl (listPhase s) = (splitNl s).map listRule := by
  unfold listPhase
  refine splitNl_joinNl _ ?_ ?_
  · intro hmap
    exact splitNl_ne_nil s (List.map_eq_nil_iff.mp hmap)
  · intro l hl
    obtain ⟨l₀, hl₀, rfl⟩ := List.mem_map.mp hl
    exact listRule_no_nl (splitNl_no_nl s l₀ hl₀)

/-- Joining tag-safe lines with newlines is tag-safe. -/
theorem tagSafe_joinNl : ∀ ls : List Str, (∀ l ∈ ls, TagSafe l) →
    TagSafe (joinNl ls)
  | [], _ => TagSafe.nil
  | [l], h => h l (by simp)
  | l :: l' :: ls, h => by
      show TagSafe (l ++ '\n' :: joinNl (l' :: ls))
      refine tagSafe_append (h l (by simp)) (TagSafe.chr _ _ (by decide) ?_)
      exact tagSafe_joinNl (l' :: ls) (fun x hx => h x (List.mem_cons_of_mem l hx))

/-- Characterization of a successful `</li>` search: the input splits as the
newline-free prefix, the `</li>`, and the remainder. -/
theorem findLC_eq : ∀ (s x y : Str), findLC s = some (x, y) →
    s = x ++ liClose ++ y ∧ '\n' ∉ x := by
  intro s
  induction s with
  | nil => intro x y h; exact Option.noConfusion h
  | cons c rest ih =>
    intro x y h
    rw [findLC] at h
    by_cases h1 : c = '\n'
    · rw [if_pos h1] at h
      exact Option.noConfusion h
    · rw [if_neg h1] at h
      cases hfc : findLC rest with
      | some p =>
        rw [hfc] at h
        rw [Option.some.injEq, Prod.mk.injEq] at h
        obtain ⟨rfl, rfl⟩ := h
        obtain ⟨heq, hnl⟩ := ih p.1 p.2 hfc
        constructor
        · rw [List.cons_append, List.cons_append, ← heq]
        · intro hmem
          rcases List.mem_cons.mp hmem with h' | h'
          · exact h1 h'.symm
          · exact hnl h'
      | none =>
        rw [hfc] at h
        by_cases h2 : c = '<' ∧ rest.take 4 = "/li>".toList
        · rw [if_pos h2] at h
          rw [Option.some.injEq, Prod.mk.injEq] at h
          obtain ⟨rfl, rfl⟩ := h
          refine ⟨?_, by simp⟩
          rw [List.nil_append, h2.1]
          have : liClose = '<' :: "/li>".toList := rfl
          rw [this, List.cons_append]
          exact congrArg ('<' :: ·) (eq_take_append h2.2)
        · rw [if_neg h2] at h
          exact Option.noConfusion h

/-- Characterization of a matched `<li>` item. -/
theorem liItem_eq : ∀ {s m r : Str}, liItem s = some (m, r) →
    ∃ x, s = (liOpen ++ x ++ liClose) ++ r ∧ m = liOpen ++ x ++ liClose ∧ '\n' ∉ x := by
  intro s m r h
  unfold liItem at h
  split at h
  · rename_i h4
    cases hfc : findLC (s.drop 4) with
    | some p =>
      rw [hfc] at h
      rw [Option.some.injEq, Prod.mk.injEq] at h
      obtain ⟨rfl, rfl⟩ := h
      obtain ⟨heq, hnl⟩ := findLC_eq _ _ _ hfc
      refine ⟨p.1, ?_, rfl, hnl⟩
      have hs : s = liOpen ++ s.drop 4 := by
        have h4' : s.take 4 = liOpen := h4
        exact eq_take_append h4'
      rw [hs, heq]
      simp [List.append_assoc]
    | none =>
      rw [hfc] at h
      exact Option.noConfusion h
  · exact Option.noConfusion h

/-- A matched item and its remainder partition the input; the item is
nonempty. -/
theorem liItem_len {s m r : Str} (h : liItem s = some (m, r)) :
    m.length + r.length = s.length ∧ 0 < m.length := by
  obtain ⟨x, hs, hm, _⟩ := liItem_eq h
  constructor
  · rw [hs, hm]
    simp only [List.length_append]
  · rw [hm]
    simp [liOpen]

/-- A matched item and its remainder are tag-safe when the input is. -/
theorem liItem_safe {s m r : Str} (h : liItem s = some (m, r))
    (hts : TagSafe s) : TagSafe m ∧ TagSafe r := by
  obtain ⟨x, hs, hm, _⟩ := liItem_eq h
  have hsuffix : TagSafe (x ++ liClose ++ r) := by
    have : TagSafe (liOpen ++ (x ++ liClose ++ r)) := by
      rw [hs] at hts
      simp only [List.append_assoc] at hts ⊢
      exact hts
    exact tagSafe_suffix liOpen this
  obtain ⟨hx, hr⟩ := tagSafe_split_tag hsuffix (show liClose ∈ allowedTags by decide) x r rfl
  refine ⟨?_, hr⟩
  rw [hm]
  simp only [List.append_assoc]
  exact TagSafe.tag _ _ (by decide) (tagSafe_append hx liClose_safe)

/-- A matched run and its remainder partition the input; the run is
nonempty. -/
theorem liRunA_len : ∀ (f : Nat) (s m r : Str), liRunA f s = some (m, r) →
    m.length + r.length = s.length ∧ 0 < m.length := by
  intro f
  induction f with
  | zero => intro s m r h; exact Option.noConfusion h
  | succ f' ih =>
    intro s m r h
    rw [liRunA] at h
    cases hit : liItem s with
    | none => rw [hit] at h; exact Option.noConfusion h
    | some p =>
      rw [hit] at h
      obtain ⟨m1, r1⟩ := p
      dsimp only at h
      obtain ⟨hlen1, hpos1⟩ := liItem_len hit
      by_cases h1 : r1.take 1 = ['\n']
      · rw [if_pos h1] at h
        have hr1 : r1 = '\n' :: r1.drop 1 := take_one_eq_cons h1
        have hd : (r1.drop 1).length + 1 = r1.length := by
          conv_rhs => rw [hr1]
          simp
        cases hrec : liRunA f' (r1.drop 1) with
        | some q =>
          rw [hrec] at h
          obtain ⟨m3, r3⟩ := q
          obtain ⟨hlen3, _⟩ := ih _ _ _ hrec
          rw [Option.some.injEq, Prod.mk.injEq] at h
          obtain ⟨rfl, rfl⟩ := h
          constructor
          · simp only [List.length_append, List.length_cons]
            omega
          · simp only [List.length_append]
            omega
        | none =>
          rw [hrec] at h
          rw [Option.some.injEq, Prod.mk.injEq] at h
          obtain ⟨rfl, rfl⟩ := h
          constructor
          · simp only [List.length_append, List.length_cons, List.length_nil]
            omega
          · simp only [List.length_append]
            omega
      · rw [if_neg h1] at h
        cases hrec : liRunA f' r1 with
        | some q =>
          rw [hrec] at h
          obtain ⟨m3, r3⟩ := q
          obtain ⟨hlen3, _⟩ := ih _ _ _ hrec
          rw [Option.some.injEq, Prod.mk.injEq] at h
          obtain ⟨rfl, rfl⟩ := h
          constructor
          · simp only [List.length_append]
            omega
          · simp only [List.length_append]
            omega
        | none =>
          rw [hrec] at h
          rw [Option.some.injEq, Prod.mk.injEq] at h
          obtain ⟨rfl, rfl⟩ := h
          exact ⟨hlen1, hpos1⟩

/-- A matched run and its remainder are tag-safe when the input is. -/
theorem liRunA_safe : ∀ (f : Nat) (s m r : Str), liRunA f s = some (m, r) →
    TagSafe s → TagSafe m ∧ TagSafe r := by
  intro f
  induction f with
  | zero => intro s m r h; exact absurd h (by rw [liRunA]; simp)
  | succ f' ih =>
    intro s m r h hts
    rw [liRunA] at h
    cases hit : liItem s with
    | none => rw [hit] at h; exact Option.noConfusion h
    | some p =>
      rw [hit] at h
      obtain ⟨m1, r1⟩ := p
      dsimp only at h
      obtain ⟨hm1, hr1⟩ := liItem_safe hit hts
      by_cases h1 : r1.take 1 = ['\n']
      · rw [if_pos h1] at h
        have hr1' : TagSafe (r1.drop 1) := tagSafe_drop 1 hr1
        cases hrec : liRunA f' (r1.drop 1) with
        | some q =>
          rw [hrec] at h
          obtain ⟨m3, r3⟩ := q
          obtain ⟨hm3, hr3⟩ := ih _ _ _ hrec hr1'
          rw [Option.some.injEq, Prod.mk.injEq] at h
          obtain ⟨rfl, rfl⟩ := h
          exact ⟨tagSafe_append hm1 (TagSafe.chr _ _ (by decide) hm3), hr3⟩
        | none =>
          rw [hrec] at h
          rw [Option.some.injEq, Prod.mk.injEq] at h
          obtain ⟨rfl, rfl⟩ := h
          exact ⟨tagSafe_append hm1 (TagSafe.chr _ _ (by decide) TagSafe.nil), hr1'⟩
      · rw [if_neg h1] at h
        cases hrec : liRunA f' r1 with
        | some q =>
          rw [hrec] at h
          obtain ⟨m3, r3⟩ := q
          obtain ⟨hm3, hr3⟩ := ih _ _ _ hrec hr1
          rw [Option.some.injEq, Prod.mk.injEq] at h
          obtain ⟨rfl, rfl⟩ := h
          exact ⟨tagSafe_append hm1 hm3, hr3⟩
        | none =>
          rw [hrec] at h
          rw [Option.some.injEq, Prod.mk.injEq] at h
          obtain ⟨rfl, rfl⟩ := h
          exact ⟨hm1, hr1⟩

theorem liItem_none {s : Str} (h : ¬s.take 4 = liOpen) : liItem s = none := by
  unfold liItem
  rw [if_neg h]

theorem liRunA_none : ∀ (f : Nat) {s : Str}, liItem s = none → liRunA f s = none := by
  intro f s h
  cases f with
  | zero => rfl
  | succ f' => rw [liRunA, h]

theorem take4_ne_liOpen {c : Char} {t : Str} (hc : c ≠ '<') :
    ¬(c :: t).take 4 = liOpen := by
  have hli : liOpen = '<' :: ['l', 'i', '>'] := rfl
  rw [List.take_succ_cons, hli]
  intro h
  injection h with h1 _
  exact hc h1

/-- `liRun` fails on the empty string and on strings not starting with `<`. -/
theorem liRun_none_head {c : Char} {t : Str} (hc : c ≠ '<') :
    liRun (c :: t) = none :=
  liRunA_none _ (liItem_none (take4_ne_liOpen hc))

/-- The `<ul>` pass is insensitive to the exact fuel, provided it is at least
the input length. -/
theorem ulA_fuel : ∀ (n : Nat) (s : Str), s.length ≤ n →
    ∀ f g, s.length ≤ f → s.length ≤ g → ulA f s = ulA g s := by
  intro n
  induction n using Nat.strong_induction_on with
  | _ n ih =>
    intro s hsn f g hf hg
    cases s with
    | nil =>
      cases f <;> cases g <;> rfl
    | cons c rest =>
      cases f with
      | zero => simp at hf
      | succ f' =>
        cases g with
        | zero => simp at hg
        | succ g' =>
          rw [ulA, ulA]
          cases hlr : liRun (c :: rest) with
          | some p =>
            obtain ⟨m, r⟩ := p
            obtain ⟨hlen, hpos⟩ := liRunA_len _ _ _ _ hlr
            simp only [List.length_cons] at hsn hf hg hlen
            have hr : r.length < n := by omega
            exact congrArg (ulOpen ++ m ++ ulClose ++ ·)
              (ih r.length hr r le_rfl f' g' (by omega) (by omega))
          | none =>
            simp only [List.length_cons] at hsn hf hg
            exact congrArg (c :: ·)
              (ih rest.length (by omega) rest le_rfl f' g' (by omega) (by omega))

theorem ulA_eq_ulWrap {f : Nat} {s : Str} (hf : s.length ≤ f) :
    ulA f s = ulWrap s :=
  ulA_fuel s.length s le_rfl f s.length hf le_rfl

/-- Unfolding `ulWrap` at a matched run. -/
theorem ulWrap_some {s m r : Str} (h : liRun s = some (m, r)) :
    ulWrap s = ulOpen ++ m ++ ulClose ++ ulWrap r := by
  cases s with
  | nil => exact absurd h (by rw [show liRun [] = none from rfl]; simp)
  | cons c t =>
    show ulA (c :: t).length (c :: t) = _
    rw [List.length_cons, ulA, h]
    obtain ⟨hlen, hpos⟩ := liRunA_len _ _ _ _ h
    simp only [List.length_cons] at hlen
    exact congrArg (ulOpen ++ m ++ ulClose ++ ·) (ulA_eq_ulWrap (by omega))

/-- Unfolding `ulWrap` at a non-match. -/
theorem ulWrap_none_cons {c : Char} {t : Str} (h : liRun (c :: t) = none) :
    ulWrap (c :: t) = c :: ulWrap t := by
  show ulA (c :: t).length (c :: t) = _
  rw [List.length_cons, ulA, h]
  exact congrArg (c :: ·) (ulA_eq_ulWrap le_rfl)

/-- The `<ul>` pass copies a `<`-free prefix unchanged. -/
theorem ulWrap_skip : ∀ (u v : Str), '<' ∉ u → ulWrap (u ++ v) = u ++ ulWrap v := by
  intro u
  induction u with
  | nil => intro v _; rfl
  | cons c u' ih =>
    intro v hu
    have hc : c ≠ '<' := fun h => hu (h ▸ List.mem_cons_self c u')
    rw [List.cons_append, ulWrap_none_cons (liRun_none_head hc)]
    rw [ih v (fun h => hu (List.mem_cons_of_mem c h))]
    rfl

/-- The `<ul>` pass preserves tag-safety. -/
theorem ulWrap_safe : ∀ (n : Nat) (s : Str), s.length ≤ n → TagSafe s →
    TagSafe (ulWrap s) := by
  intro n
  induction n using Nat.strong_induction_on with
  | _ n ih =>
    intro s hsn hts
    cases hlr : liRun s with
    | some p =>
      obtain ⟨m, r⟩ := p
      obtain ⟨hlen, hpos⟩ := liRunA_len _ _ _ _ hlr
      obtain ⟨hm, hr⟩ := liRunA_safe _ _ _ _ hlr hts
      rw [ulWrap_some hlr]
      have hrsafe : TagSafe (ulWrap r) := ih r.length (by omega) r le_rfl hr
      simp only [List.append_assoc]
      exact TagSafe.tag _ _ (by decide)
        (tagSafe_append hm (TagSafe.tag _ _ (by decide) hrsafe))
    | none =>
      cases hts with
      | nil => exact TagSafe.nil
      | chr c s' hc hts' =>
        rw [ulWrap_none_cons (by rw [← hlr])]
        simp only [List.length_cons] at hsn
        exact TagSafe.chr _ _ hc (ih s'.length (by omega) s' le_rfl hts')
      | tag t s' htag hts' =>
        obtain ⟨t', rfl, ht'⟩ := tag_cons htag
        rw [List.cons_append] at hlr ⊢
        rw [ulWrap_none_cons hlr, ulWrap_skip t' s' ht']
        have hlen : s'.length < n := by
          simp only [List.cons_append, List.length_cons, List.length_append] at hsn
          omega
        have := TagSafe.tag _ (ulWrap s') htag (ih s'.length hlen s' le_rfl hts')
        rw [List.cons_append] at this
        exact this

/-- Each block produced by the paragraph splitter is tag-safe (cuts happen
only at newlines, which no allowed tag contains). -/
theorem sbA_safe : ∀ (f : Nat) (acc s : Str), TagSafe (acc.reverse ++ s) →
    ∀ b ∈ sbA f acc s, TagSafe b := by
  intro f
  induction f with
  | zero =>
    intro acc s h b hb
    rw [show sbA 0 acc s = [acc.reverse ++ s] from rfl, List.mem_singleton] at hb
    rw [hb]
    exact h
  | succ f' ih =>
    intro acc s h b hb
    cases s with
    | nil =>
      rw [show sbA (f' + 1) acc [] = [acc.reverse] from rfl, List.mem_singleton] at hb
      rw [hb]
      rw [List.append_nil] at h
      exact h
    | cons c rest =>
      rw [show sbA (f' + 1) acc (c :: rest) =
          (if c = '\n' ∧ rest.take 1 = ['\n'] then
            acc.reverse :: sbA f' [] ((rest.drop 1).dropWhile (fun x => x = '\n'))
          else sbA f' (c :: acc) rest) from rfl] at hb
      by_cases h1 : c = '\n' ∧ rest.take 1 = ['\n']
      · rw [if_pos h1] at hb
        rcases List.mem_cons.mp hb with rfl | hb'
        · exact tagSafe_split_nl (h1.1 ▸ h) acc.reverse rest rfl
        · refine ih [] _ ?_ b hb'
          rw [List.reverse_nil, List.nil_append]
          have hrest : TagSafe rest := by
            have := tagSafe_suffix (acc.reverse ++ [c]) (s := rest) ?_
            · exact this
            · rw [List.append_assoc, List.singleton_append]
              exact h
          exact tagSafe_dropWhile (tagSafe_drop 1 hrest)
      · rw [if_neg h1] at hb
        refine ih (c :: acc) rest ?_ b hb
        rw [List.reverse_cons, List.append_assoc, List.singleton_append]
        exact h

/-- Rewriting newlines to `<br/>` preserves tag-safety. -/
theorem replC_nl_safe {b : Str} (h : TagSafe b) : TagSafe (replC '\n' brTag b) := by
  induction h with
  | nil => exact TagSafe.nil
  | chr c s hc _ ih =>
    by_cases hcn : c = '\n'
    · rw [replC, if_pos hcn]
      exact TagSafe.tag _ _ (by decide) ih
    · rw [replC, if_neg hcn]
      exact TagSafe.chr _ _ hc ih
  | tag t s ht _ ih =>
    rw [replC_append, replC_of_not_mem t (tags_no_nl t ht)]
    exact TagSafe.tag _ _ ht ih

/-- Paragraph wrapping preserves tag-safety. -/
theorem paraWrap_safe {b : Str} (h : TagSafe b) : TagSafe (paraWrap b) := by
  unfold paraWrap
  split
  · exact h
  · simp only [List.append_assoc]
    refine TagSafe.tag _ _ (by decide) (tagSafe_append (replC_nl_safe h) ?_)
    have := TagSafe.tag pClose [] (by decide) TagSafe.nil
    rwa [List.append_nil] at this

theorem tagSafe_flatten : ∀ ls : List Str, (∀ l ∈ ls, TagSafe l) →
    TagSafe ls.flatten := by
  intro ls
  induction ls with
  | nil => intro _; exact TagSafe.nil
  | cons l ls' ih =>
    intro h
    rw [List.flatten_cons]
    exact tagSafe_append (h l (by simp))
      (ih (fun x hx => h x (List.mem_cons_of_mem l hx)))

/-- The paragraph pass preserves tag-safety. -/
theorem paraPhase_safe {s : Str} (h : TagSafe s) : TagSafe (paraPhase s) := by
  unfold paraPhase
  refine tagSafe_flatten _ ?_
  intro b hb
  obtain ⟨b₀, hb₀, rfl⟩ := List.mem_map.mp hb
  refine paraWrap_safe ?_
  refine sbA_safe s.length [] s ?_ b₀ hb₀
  rw [List.reverse_nil, List.nil_append]
  exact h

/-- Tag-safety gives the C8 property: every `<` starts an allowed tag. -/
theorem onlyRuleTags_of_tagSafe {s : Str} (h : TagSafe s) : OnlyRuleTags s := by
  induction h with
  | nil =>
    intro xs ys heq
    exact absurd heq (by simp)
  | chr c s' hc _ ih =>
    intro xs ys heq
    cases xs with
    | nil =>
      rw [List.nil_append] at heq
      injection heq with h1 _
      exact absurd h1 hc
    | cons x xs' =>
      rw [List.cons_append] at heq
      injection heq with _ h2
      exact ih xs' ys h2
  | tag t s' ht _ ih =>
    intro xs ys heq
    obtain ⟨t', hteq, ht'⟩ := tag_cons ht
    cases xs with
    | nil =>
      rw [List.nil_append] at heq
      exact ⟨t, ht, s', heq.symm⟩
    | cons x xs' =>
      rw [List.cons_append] at heq
      rw [hteq, List.cons_append] at heq
      injection heq with _ h2
      -- t' ++ s' = xs' ++ '<' :: ys : the '<' is in s' (t' is '<'-free)
      rw [List.append_eq_append_iff] at h2
      rcases h2 with ⟨a', _, ha2⟩ | ⟨c', hc1, hc2⟩
      · exact ih a' ys ha2
      · cases c' with
        | nil =>
          rw [List.append_nil] at hc1
          rw [List.nil_append] at hc2
          exact ih [] ys (by rw [List.nil_append]; exact hc2.symm)
        | cons d c'' =>
          exfalso
          apply ht'
          rw [hc1]
          rw [List.cons_append] at hc2
          injection hc2 with hd _
          apply List.mem_append_right
          rw [← hd]
          exact List.mem_cons_self _ _

/-- The whole markdown pipeline applied to a `<`-free (escaped) string is
tag-safe. -/
theorem mdPhases_safe {s : Str} (h : '<' ∉ s) : TagSafe (mdPhases s) := by
  have hl0 : ∀ l ∈ splitNl s, HLine l := by
    intro l hl
    left
    intro hmem
    exact h (mem_of_mem_splitNl hl hmem)
  obtain ⟨_, hl3⟩ := headingPhase_lines (Or.inr (Or.inr rfl)) s hl0
  obtain ⟨_, hl2⟩ := headingPhase_lines (Or.inr (Or.inl rfl)) _ hl3
  obtain ⟨_, hl1⟩ := headingPhase_lines (Or.inl rfl) _ hl2
  set s₃ := headingPhase 1 (headingPhase 2 (headingPhase 3 s)) with hs₃
  -- bold acts line by line on s₃
  have hbold : boldRepl s₃ = joinNl ((splitNl s₃).map boldRepl) := by
    conv_lhs => rw [← joinNl_splitNl s₃]
    exact bold_join _ (splitNl_no_nl s₃)
  have hlines4 : splitNl (boldRepl s₃) = (splitNl s₃).map boldRepl := by
    rw [hbold]
    refine splitNl_joinNl _ ?_ ?_
    · intro hmap
      exact splitNl_ne_nil s₃ (List.map_eq_nil_iff.mp hmap)
    · intro l hl
      obtain ⟨l₀, hl₀, rfl⟩ := List.mem_map.mp hl
      exact boldA_no_nl _ _ (splitNl_no_nl s₃ l₀ hl₀)
  have hsafe4 : ∀ l ∈ splitNl (boldRepl s₃), TagSafe l := by
    rw [hlines4]
    intro l hl
    obtain ⟨l₀, hl₀, rfl⟩ := List.mem_map.mp hl
    exact boldRepl_line_safe (hl1 l₀ hl₀)
  -- list pass
  have hlines5 : splitNl (listPhase (boldRepl s₃)) =
      (splitNl (boldRepl s₃)).map listRule := listPhase_lines _
  have hsafe5 : TagSafe (listPhase (boldRepl s₃)) := by
    unfold listPhase
    refine tagSafe_joinNl _ ?_
    intro l hl
    obtain ⟨l₀, hl₀, rfl⟩ := List.mem_map.mp hl
    exact listRule_safe (hsafe4 l₀ hl₀)
  -- ul pass and paragraph pass
  exact paraPhase_safe (ulWrap_safe _ _ le_rfl hsafe5)

/-- C8 theorem. `markdownToHtml` returns the empty string on empty (absent)
input; on any other input it first HTML-escapes every `&`, `<` and `>` (the
escaped text contains no angle bracket at all) and only then applies the
markdown rewrites, so every `<` in its output starts one of the fixed
heading/strong/list/paragraph/line-break tags introduced by its own rules —
never a tag carried in from the input. -/
theorem markdownToHtml_tag_safety :
    markdownToHtml [] = [] ∧
    ∀ s : Str,
      markdownToHtml s = (if s = [] then [] else mdPhases (escapeHtml s)) ∧
      ('<' ∉ escapeHtml s ∧ '>' ∉ escapeHtml s) ∧
      OnlyRuleTags (markdownToHtml s) := by
  refine ⟨rfl, fun s => ⟨rfl, escapeHtml_no_angle s, ?_⟩⟩
  unfold markdownToHtml
  split
  · intro xs ys heq
    exact absurd heq (by simp)
  · exact onlyRuleTags_of_tagSafe (mdPhases_safe (escapeHtml_no_angle s).1)

/-- C5 witness: the loader succeeds on the concrete sample upload with
exactly its resolvable rows and a zero skip count. -/
theorem load_error_contract_witness :
    ((load sampleTable).toOption.getD ⟨[], 0⟩).records = resolvedRows sampleTable ∧
    resolvedRows sampleTable ≠ [] ∧
    ((load sampleTable).toOption.getD ⟨[], 0⟩).skippedRows =
      sampleTable.rows.length - (resolvedRows sampleTable).length :=
  (load_error_contract sampleTable).2 ((load sampleTable).toOption.getD ⟨[], 0⟩) (by rfl)
